import Mathlib

/-!
# ConfigManager (src/cpp/src/ConfigManager.cpp)

A shallow embedding of the `ConfigManager` class: a `std::map<string,string>`
backed by a line-oriented `key=value` text file.

* `std::string` is a list of characters (`Str`).
* `std::map<string,string>` is an association list kept in strictly ascending
  key order (`StdMap`), the order in which the C++ container iterates.
* The file system is an explicit value (`FileSystem`) threaded through every
  member function that opens a stream.
* Text sent to `cout`/`cerr` is not part of the state and is not modelled.
-/

namespace ConfigManagerModel

/-- A `std::string`: a sequence of `char`. -/
abbrev Str := List Char

/-! ## `std::string` primitives used by the class -/

/-- The result of `str.find_first_not_of(set)`: index of the first character that is not
in `set`, `none` standing for `string::npos`. -/
def find_first_not_of : Str → Str → Option Nat
  | [], _ => none
  | c :: cs, set =>
    if c ∈ set then (find_first_not_of cs set).map (· + 1) else some 0

/-- The result of `str.find_last_not_of(set)`: index of the last character that is not in
`set`, `none` standing for `string::npos`. -/
def find_last_not_of : Str → Str → Option Nat
  | [], _ => none
  | c :: cs, set =>
    match find_last_not_of cs set with
    | some i => some (i + 1)
    | none => if c ∈ set then none else some 0

/-- The result of `str.find(ch)`: index of the first occurrence of `ch`, `none` standing for
`string::npos`. -/
def find : Str → Char → Option Nat
  | [], _ => none
  | c :: cs, ch => if c = ch then some 0 else (find cs ch).map (· + 1)

/-- The two-argument `str.substr(pos, len)` (for `pos` within the string). -/
def substr (str : Str) (pos len : Nat) : Str := (str.drop pos).take len

/-- The one-argument `str.substr(pos)` (for `pos` within the string). -/
def substrFrom (str : Str) (pos : Nat) : Str := str.drop pos

/-- The character set `" \t\r\n"` that `trim` strips. -/
def trimSet : Str := [' ', '\t', '\r', '\n']

/-- The value of `string::npos` for a 64-bit `size_t`. -/
def npos : Nat := 2 ^ 64 - 1

/-- `ConfigManager::trim`. When `start` is found `end` is found too and `end ≥ start`, so
`end - start + 1` does not wrap; the `none` branch for `end` keeps the `size_t` arithmetic the
source would perform. -/
def trim (str : Str) : Str :=
  match find_first_not_of str trimSet with
  | none => []
  | some start =>
    match find_last_not_of str trimSet with
    | some e => substr str start (e - start + 1)
    | none => substr str start ((npos + 2 ^ 64 - start + 1) % 2 ^ 64)

/-- The sequence of lines that `while (getline(file, line))` yields on a stream holding
`content`: lines end at `'\n'` (which is dropped); a final line without `'\n'` is delivered
when it is non-empty, and nothing is delivered once the stream is exhausted. -/
def getlines : Str → List Str
  | [] => []
  | c :: cs =>
    if c = '\n' then [] :: getlines cs
    else
      match getlines cs with
      | [] => [[c]]
      | l :: ls => (c :: l) :: ls

/-- The C-locale `isalnum`. -/
def isalnum (c : Char) : Bool := c.isAlphanum

/-- The C-locale `tolower`. -/
def tolower (c : Char) : Char := c.toLower

/-- The C-locale `isspace`, which `strtol` uses to skip leading blanks. -/
def isspace (c : Char) : Bool :=
  c = ' ' || c = '\t' || c = '\n' || c = '\x0b' || c = '\x0c' || c = '\r'

/-- Value of a run of decimal digits, most significant first, on top of `acc`. -/
def digitsValue (acc : Nat) : Str → Nat
  | [] => acc
  | c :: cs => digitsValue (acc * 10 + (c.toNat - '0'.toNat)) cs

/-- `INT_MIN` of a 32-bit `int`. -/
def INT_MIN : Int := -2147483648

/-- `INT_MAX` of a 32-bit `int`. -/
def INT_MAX : Int := 2147483647

/-- `std::stoi(value)`: skip leading white space, read an optional sign and the longest run
of decimal digits; `none` when the call throws (`invalid_argument` when there is no digit,
`out_of_range` when the number does not fit an `int`). Characters after the digits are
ignored. -/
def stoi (value : Str) : Option Int :=
  let body := value.dropWhile isspace
  let (neg, rest) :=
    match body with
    | '-' :: r => (true, r)
    | '+' :: r => (false, r)
    | _ => (false, body)
  let ds := rest.takeWhile Char.isDigit
  if ds.isEmpty then none
  else
    let n : Int := if neg then -(digitsValue 0 ds : Int) else (digitsValue 0 ds : Int)
    if n < INT_MIN || n > INT_MAX then none else some n

/-- Decimal digits of `n`, most significant first, pushed onto `acc` (`fuel` bounds the
number of digits). -/
def natDigits : Nat → Nat → Str → Str
  | 0, _, acc => acc
  | fuel + 1, n, acc =>
    let acc1 := Char.ofNat ('0'.toNat + n % 10) :: acc
    if n / 10 = 0 then acc1 else natDigits fuel (n / 10) acc1

/-- `std::to_string(int)`. -/
def to_string (n : Int) : Str :=
  match n with
  | Int.ofNat m => natDigits (m + 1) m []
  | Int.negSucc m => '-' :: natDigits (m + 2) (m + 1) []

/-! ## `std::map<string,string>` -/

/-- `std::less<std::string>`: lexicographic comparison of the characters. -/
def strLt : Str → Str → Bool
  | [], [] => false
  | [], _ :: _ => true
  | _ :: _, [] => false
  | a :: as, b :: bs =>
    if a < b then true else if b < a then false else strLt as bs

/-- The contents of a `std::map<string,string>`, listed in iteration order. -/
abbrev StdMap := List (Str × Str)

/-- The representation invariant of `std::map`: keys strictly ascending. -/
def StdMap.Sorted (m : StdMap) : Prop := m.Pairwise (fun a b => strLt a.1 b.1 = true)

instance (m : StdMap) : Decidable (StdMap.Sorted m) :=
  inferInstanceAs (Decidable (List.Pairwise (fun (a b : Str × Str) => strLt a.1 b.1 = true) m))

/-- The value at `config.find(key)`, `none` standing for `config.end()`. -/
def StdMap.find (m : StdMap) (key : Str) : Option Str :=
  match m with
  | [] => none
  | (k, v) :: rest => if k = key then some v else StdMap.find rest key

/-- The assignment `config[key] = value`: overwrite the entry with that key, or insert a new
entry at its place in key order. -/
def StdMap.assign (m : StdMap) (key value : Str) : StdMap :=
  match m with
  | [] => [(key, value)]
  | (k, v) :: rest =>
    if strLt key k then (key, value) :: (k, v) :: rest
    else if k = key then (k, value) :: rest
    else (k, v) :: StdMap.assign rest key value

/-- The effect of `config.erase(config.find(key))` when the key is found. -/
def StdMap.erase (m : StdMap) (key : Str) : StdMap :=
  match m with
  | [] => []
  | (k, v) :: rest => if k = key then rest else (k, v) :: StdMap.erase rest key

/-! ## The file system seen through `ifstream` / `ofstream` -/

/-- The part of the file system the class touches. `content p` is the text stored at path
`p` (`none` when no file exists there); `canRead` and `canWrite` say whether the process may
open the path for reading and for writing. -/
structure FileSystem where
  content : Str → Option Str
  canRead : Str → Bool
  canWrite : Str → Bool

/-- The text an `ifstream file(path)` reads, `none` when `file.is_open()` is false: the empty
path, a missing file and an unreadable file cannot be opened. -/
def FileSystem.openRead (fs : FileSystem) (path : Str) : Option Str :=
  if path.isEmpty then none
  else if fs.canRead path then fs.content path
  else none

/-- Whether an `ofstream file(path)` opens: not for the empty path nor for a path the
process may not write. -/
def FileSystem.openWrite (fs : FileSystem) (path : Str) : Bool :=
  !path.isEmpty && fs.canWrite path

/-- The file system after an `ofstream` opened on `path` wrote `data` and was closed: the
file is created or truncated and holds exactly `data`. -/
def FileSystem.write (fs : FileSystem) (path data : Str) : FileSystem :=
  { fs with content := fun q => if q = path then some data else fs.content q }

/-! ## The class -/

/-- The data members of `ConfigManager`. -/
structure ConfigManager where
  config : StdMap
  configFile : Str
  loaded : Bool
  enableValidation : Bool
  enableDefaults : Bool
  autoSave : Bool
deriving DecidableEq

/-- The constructor `ConfigManager()`. -/
def ConfigManager.new : ConfigManager :=
  { config := [], configFile := [], loaded := false,
    enableValidation := true, enableDefaults := true, autoSave := true }

/-- The text `saveConfig` streams into the file: `key=value` and `endl` for each pair, in
iteration order. -/
def serialize : StdMap → Str
  | [] => []
  | (k, v) :: rest => k ++ '=' :: v ++ '\n' :: serialize rest

/-- `ConfigManager::saveConfig`: the returned flag and the file system afterwards (the
object itself is not modified). -/
def saveConfig (s : ConfigManager) (fs : FileSystem) : Bool × FileSystem :=
  if s.configFile.isEmpty then (false, fs)
  else if !fs.openWrite s.configFile then (false, fs)
  else (true, fs.write s.configFile (serialize s.config))

/-- `ConfigManager::getString`. -/
def getString (s : ConfigManager) (fs : FileSystem) (key defaultValue : Str) :
    Str × ConfigManager × FileSystem :=
  match s.config.find key with
  | some v => (v, s, fs)
  | none =>
    if s.enableDefaults then
      let s1 := { s with config := s.config.assign key defaultValue }
      if s1.autoSave then (defaultValue, s1, (saveConfig s1 fs).2)
      else (defaultValue, s1, fs)
    else (defaultValue, s, fs)

/-- `ConfigManager::getInt`; the `catch` branch is the `none` case of `stoi`. -/
def getInt (s : ConfigManager) (fs : FileSystem) (key : Str) (defaultValue : Int) :
    Int × ConfigManager × FileSystem :=
  let (value, s1, fs1) := getString s fs key (to_string defaultValue)
  match stoi value with
  | some n => (n, s1, fs1)
  | none => (defaultValue, s1, fs1)

/-- `ConfigManager::getDouble`. Floating point is not modelled: `D` stands for `double`,
`toStr` for `std::to_string(double)` and `stod` for `std::stod` (`none` when it throws). -/
def getDouble {D : Type} (toStr : D → Str) (stod : Str → Option D)
    (s : ConfigManager) (fs : FileSystem) (key : Str) (defaultValue : D) :
    D × ConfigManager × FileSystem :=
  let (value, s1, fs1) := getString s fs key (toStr defaultValue)
  match stod value with
  | some x => (x, s1, fs1)
  | none => (defaultValue, s1, fs1)

/-- `ConfigManager::getBool`. -/
def getBool (s : ConfigManager) (fs : FileSystem) (key : Str) (defaultValue : Bool) :
    Bool × ConfigManager × FileSystem :=
  let (value, s1, fs1) :=
    getString s fs key (if defaultValue then "true".toList else "false".toList)
  let value := value.map tolower
  (value = "true".toList || value = "1".toList || value = "yes".toList, s1, fs1)

/-- `ConfigManager::isValidKey`. -/
def isValidKey (key : Str) : Bool :=
  if key.isEmpty then false
  else key.all (fun c => !(!isalnum c && c != '_' && c != '.'))

/-- `ConfigManager::setString`. -/
def setString (s : ConfigManager) (fs : FileSystem) (key value : Str) :
    ConfigManager × FileSystem :=
  if isValidKey key then
    let s1 := { s with config := s.config.assign key value }
    if s1.autoSave then (s1, (saveConfig s1 fs).2) else (s1, fs)
  else (s, fs)

/-- `ConfigManager::setInt`. -/
def setInt (s : ConfigManager) (fs : FileSystem) (key : Str) (value : Int) :
    ConfigManager × FileSystem :=
  setString s fs key (to_string value)

/-- `ConfigManager::setDouble`, with `toStr` standing for `std::to_string(double)`. -/
def setDouble {D : Type} (toStr : D → Str)
    (s : ConfigManager) (fs : FileSystem) (key : Str) (value : D) :
    ConfigManager × FileSystem :=
  setString s fs key (toStr value)

/-- `ConfigManager::setBool`. -/
def setBool (s : ConfigManager) (fs : FileSystem) (key : Str) (value : Bool) :
    ConfigManager × FileSystem :=
  setString s fs key (if value then "true".toList else "false".toList)

/-- `ConfigManager::hasKey`. -/
def hasKey (s : ConfigManager) (key : Str) : Bool := (s.config.find key).isSome

/-- `ConfigManager::removeKey`. -/
def removeKey (s : ConfigManager) (fs : FileSystem) (key : Str) :
    ConfigManager × FileSystem :=
  match s.config.find key with
  | some _ =>
    let s1 := { s with config := s.config.erase key }
    if s1.autoSave then (s1, (saveConfig s1 fs).2) else (s1, fs)
  | none => (s, fs)

/-- `ConfigManager::getKeys`. -/
def getKeys (s : ConfigManager) : List Str := s.config.map (fun pair => pair.1)

/-- `ConfigManager::clear`. -/
def clear (s : ConfigManager) (fs : FileSystem) : ConfigManager × FileSystem :=
  let s1 := { s with config := [] }
  if s1.autoSave then (s1, (saveConfig s1 fs).2) else (s1, fs)

/-- `ConfigManager::parseConfigLine`. -/
def parseConfigLine (s : ConfigManager) (line : Str) : ConfigManager :=
  let trimmed := trim line
  if trimmed.isEmpty || trimmed.head? = some '#' then s
  else
    match find trimmed '=' with
    | some pos =>
      let key := trim (substr trimmed 0 pos)
      let value := trim (substrFrom trimmed (pos + 1))
      if !key.isEmpty then { s with config := s.config.assign key value } else s
    | none => s

/-- The list `requiredKeys` of `validateConfig`. -/
def requiredKeys : List Str :=
  ["operation_mode".toList, "max_threads".toList, "batch_size".toList]

/-- `ConfigManager::validateConfig`. -/
def validateConfig (s : ConfigManager) (fs : FileSystem) : Bool × ConfigManager × FileSystem :=
  if !requiredKeys.all (fun key => hasKey s key) then (false, s, fs)
  else
    let (maxThreads, s1, fs1) := getInt s fs "max_threads".toList 4
    if maxThreads < 1 || maxThreads > 32 then (false, s1, fs1)
    else
      let (batchSize, s2, fs2) := getInt s1 fs1 "batch_size".toList 100
      if batchSize < 1 || batchSize > 10000 then (false, s2, fs2)
      else (true, s2, fs2)

/-- `ConfigManager::createDefaultConfig`. -/
def createDefaultConfig (s : ConfigManager) : ConfigManager :=
  let c := s.config
  let c := c.assign "operation_mode".toList "normal".toList
  let c := c.assign "max_threads".toList "4".toList
  let c := c.assign "batch_size".toList "100".toList
  let c := c.assign "processing_threshold".toList "0.8".toList
  let c := c.assign "enable_logging".toList "true".toList
  let c := c.assign "log_level".toList "INFO".toList
  let c := c.assign "database_path".toList "data.db".toList
  let c := c.assign "network_timeout".toList "30".toList
  let c := c.assign "retry_count".toList "3".toList
  let c := c.assign "compression_enabled".toList "true".toList
  { s with config := c }

/-- `ConfigManager::loadConfig`. -/
def loadConfig (s : ConfigManager) (fs : FileSystem) (filename : Str) :
    Bool × ConfigManager × FileSystem :=
  let s := { s with configFile := filename }
  match fs.openRead filename with
  | none =>
    if s.enableDefaults then
      let s1 := createDefaultConfig s
      ((saveConfig s1 fs).1, s1, (saveConfig s1 fs).2)
    else (false, s, fs)
  | some content =>
    let s1 := (getlines content).foldl parseConfigLine s
    let s2 := { s1 with loaded := true }
    if s2.enableValidation then
      let (ok, s3, fs3) := validateConfig s2 fs
      if !ok then (false, s3, fs3) else (true, s3, fs3)
    else (true, s2, fs)

/-- `ConfigManager::reload`. -/
def reload (s : ConfigManager) (fs : FileSystem) : Bool × ConfigManager × FileSystem :=
  if s.configFile.isEmpty then (false, s, fs)
  else loadConfig s fs s.configFile

/-! ## Reference notions used to state the properties -/

/-- The valid-key grammar in the words of the specification: non-empty, and every character
is alphanumeric, `_` or `.`. -/
def ValidKey (key : Str) : Prop :=
  key ≠ [] ∧ ∀ c ∈ key, c.isAlphanum = true ∨ c = '_' ∨ c = '.'

instance (key : Str) : Decidable (ValidKey key) :=
  inferInstanceAs (Decidable (key ≠ [] ∧ ∀ c ∈ key, c.isAlphanum = true ∨ c = '_' ∨ c = '.'))

/-- A string neither begins nor ends with one of the characters `trim` strips (the empty
string included). -/
def Trimmed (v : Str) : Prop :=
  ∀ c ∈ trimSet, v.head? ≠ some c ∧ v.getLast? ≠ some c

instance (v : Str) : Decidable (Trimmed v) :=
  inferInstanceAs (Decidable (∀ c ∈ trimSet, v.head? ≠ some c ∧ v.getLast? ≠ some c))

/-- The key and value a line of the file denotes, in the words of the file format: the line
is trimmed; blank lines, lines starting with `#` and lines without `=` denote nothing; else
the key is the trimmed text before the first `=`, the value the trimmed text after it, and a
line with an empty key denotes nothing. -/
def lineEntry (line : Str) : Option (Str × Str) :=
  let t := trim line
  if t = [] ∨ t.head? = some '#' ∨ '=' ∉ t then none
  else
    let key := trim (t.takeWhile (fun c => c != '='))
    let value := trim ((t.dropWhile (fun c => c != '=')).drop 1)
    if key = [] then none else some (key, value)

/-- The map obtained from `c` by applying, in order, the entries the lines denote. -/
def applyLines (c : StdMap) (lines : List Str) : StdMap :=
  lines.foldl
    (fun c line =>
      match lineEntry line with
      | some (k, v) => c.assign k v
      | none => c)
    c

/-- The ten built-in default pairs, in key order. -/
def builtinDefaults : StdMap :=
  [("batch_size".toList, "100".toList),
   ("compression_enabled".toList, "true".toList),
   ("database_path".toList, "data.db".toList),
   ("enable_logging".toList, "true".toList),
   ("log_level".toList, "INFO".toList),
   ("max_threads".toList, "4".toList),
   ("network_timeout".toList, "30".toList),
   ("operation_mode".toList, "normal".toList),
   ("processing_threshold".toList, "0.8".toList),
   ("retry_count".toList, "3".toList)]

/-- The mapping a file with text `content` denotes: the entries of its lines, applied in
order to the empty map. -/
def fileEntries (content : Str) : StdMap := applyLines [] (getlines content)

/-- Equality of two strings up to the case of their letters. -/
def eqIgnoreCase (a b : Str) : Prop := a.map Char.toLower = b.map Char.toLower

instance (a b : Str) : Decidable (eqIgnoreCase a b) :=
  inferInstanceAs (Decidable (a.map Char.toLower = b.map Char.toLower))

/-! ## Sequences of public calls -/

/-- A call of one of the public member functions, with its arguments; `D` stands for
`double`. -/
inductive Op (D : Type) where
  | loadConfig (filename : Str)
  | reload
  | getString (key defaultValue : Str)
  | getInt (key : Str) (defaultValue : Int)
  | getDouble (key : Str) (defaultValue : D)
  | getBool (key : Str) (defaultValue : Bool)
  | setString (key value : Str)
  | setInt (key : Str) (value : Int)
  | setDouble (key : Str) (value : D)
  | setBool (key : Str) (value : Bool)
  | removeKey (key : Str)
  | clear
  | saveConfig

/-- The object and the file system after a call. -/
def Op.run {D : Type} (toStr : D → Str) (stod : Str → Option D) :
    Op D → ConfigManager × FileSystem → ConfigManager × FileSystem
  | .loadConfig filename, (s, fs) => (ConfigManagerModel.loadConfig s fs filename).2
  | .reload, (s, fs) => (ConfigManagerModel.reload s fs).2
  | .getString key d, (s, fs) => (ConfigManagerModel.getString s fs key d).2
  | .getInt key d, (s, fs) => (ConfigManagerModel.getInt s fs key d).2
  | .getDouble key d, (s, fs) => (ConfigManagerModel.getDouble toStr stod s fs key d).2
  | .getBool key d, (s, fs) => (ConfigManagerModel.getBool s fs key d).2
  | .setString key v, (s, fs) => ConfigManagerModel.setString s fs key v
  | .setInt key v, (s, fs) => ConfigManagerModel.setInt s fs key v
  | .setDouble key v, (s, fs) => ConfigManagerModel.setDouble toStr s fs key v
  | .setBool key v, (s, fs) => ConfigManagerModel.setBool s fs key v
  | .removeKey key, (s, fs) => ConfigManagerModel.removeKey s fs key
  | .clear, (s, fs) => ConfigManagerModel.clear s fs
  | .saveConfig, (s, fs) => (s, (ConfigManagerModel.saveConfig s fs).2)

/-- The object and the file system after a sequence of calls. -/
def runOps {D : Type} (toStr : D → Str) (stod : Str → Option D)
    (ops : List (Op D)) (st : ConfigManager × FileSystem) : ConfigManager × FileSystem :=
  ops.foldl (fun st op => op.run toStr stod st) st

/-- Every data line of the file at `path`, if it opens for reading, has a key in the
valid-key grammar. -/
def FileKeysValid (fs : FileSystem) (path : Str) : Prop :=
  ∀ content, fs.openRead path = some content →
    ∀ line ∈ getlines content, ∀ k v, lineEntry line = some (k, v) → ValidKey k

/-- The call offers the store no key outside the grammar: a getter is called with a valid
key, and the file that `loadConfig` or `reload` reads has valid keys only. -/
def Op.KeysValid {D : Type} : Op D → ConfigManager × FileSystem → Prop
  | .loadConfig filename, (_, fs) => FileKeysValid fs filename
  | .reload, (s, fs) => FileKeysValid fs s.configFile
  | .getString key _, _ => ValidKey key
  | .getInt key _, _ => ValidKey key
  | .getDouble key _, _ => ValidKey key
  | .getBool key _, _ => ValidKey key
  | _, _ => True

/-- Each call of the sequence satisfies `Op.KeysValid` in the state it is made in. -/
def OpsKeysValid {D : Type} (toStr : D → Str) (stod : Str → Option D) :
    List (Op D) → ConfigManager × FileSystem → Prop
  | [], _ => True
  | op :: ops, st => op.KeysValid st ∧ OpsKeysValid toStr stod ops (op.run toStr stod st)

/-- Every key of the map is in the valid-key grammar. -/
def KeysInGrammar (m : StdMap) : Prop := ∀ p ∈ m, ValidKey p.1

instance (m : StdMap) : Decidable (KeysInGrammar m) :=
  inferInstanceAs (Decidable (∀ p ∈ m, ValidKey p.1))

/-! ## Concrete inputs used by the examples -/

/-- A file system with no files in which every path may be read and written. -/
def emptyFs : FileSystem :=
  { content := fun _ => none, canRead := fun _ => true, canWrite := fun _ => true }

/-- A file system holding the single file `path` with the given text; every path may be
read and written. -/
def oneFileFs (path text : Str) : FileSystem :=
  { content := fun q => if q = path then some text else none,
    canRead := fun _ => true, canWrite := fun _ => true }

/-- A store bound to the file `f` holding the given entries. -/
def storeWith (m : StdMap) : ConfigManager :=
  { ConfigManager.new with config := m, configFile := "f".toList }

/-- A stand-in for `std::to_string(double)` in the examples, where no `double` occurs. -/
def noDoubleToStr : Unit → Str := fun _ => []

/-- A stand-in for `std::stod` in the examples, where no `double` occurs. -/
def noStod : Str → Option Unit := fun _ => none

/-- A file system without files in which no path may be read or written. -/
def lockedFs : FileSystem :=
  { content := fun _ => none, canRead := fun _ => false, canWrite := fun _ => false }

/-- The ten pairs `createDefaultConfig` assigns, in the order of its statements. -/
def defaultAssignments : StdMap :=
  [("operation_mode".toList, "normal".toList),
   ("max_threads".toList, "4".toList),
   ("batch_size".toList, "100".toList),
   ("processing_threshold".toList, "0.8".toList),
   ("enable_logging".toList, "true".toList),
   ("log_level".toList, "INFO".toList),
   ("database_path".toList, "data.db".toList),
   ("network_timeout".toList, "30".toList),
   ("retry_count".toList, "3".toList),
   ("compression_enabled".toList, "true".toList)]

/-- The three required keys of `validateConfig` are present in the map. -/
def RequiredPresent (m : StdMap) : Prop := ∀ k ∈ requiredKeys, m.find k ≠ none

instance (m : StdMap) : Decidable (RequiredPresent m) :=
  inferInstanceAs (Decidable (∀ k ∈ requiredKeys, m.find k ≠ none))

/-- The call cannot leave a loaded store without a required key: a `loadConfig` or `reload`
that opens its file returns success, `clear` is called only while `loaded` is false, and
`removeKey` of a required key likewise. -/
def Op.KeepsRequired {D : Type} : Op D → ConfigManager × FileSystem → Prop
  | .loadConfig filename, (s, fs) =>
    fs.openRead filename ≠ none → (ConfigManagerModel.loadConfig s fs filename).1 = true
  | .reload, (s, fs) =>
    fs.openRead s.configFile ≠ none → (ConfigManagerModel.reload s fs).1 = true
  | .removeKey key, (s, _) => s.loaded = true → key ∉ requiredKeys
  | .clear, (s, _) => s.loaded = false
  | _, _ => True

/-- Each call of the sequence satisfies `Op.KeepsRequired` in the state it is made in. -/
def OpsKeepRequired {D : Type} (toStr : D → Str) (stod : Str → Option D) :
    List (Op D) → ConfigManager × FileSystem → Prop
  | [], _ => True
  | op :: ops, st => op.KeepsRequired st ∧ OpsKeepRequired toStr stod ops (op.run toStr stod st)

/-- The text of a file that passes validation. -/
def validFileText : Str := "operation_mode=normal\nmax_threads=4\nbatch_size=100\n".toList

/-- The call is one of the mutating operations and does mutate the entries: a setter with a
key in the grammar, `removeKey` of a present key, `clear`, or a getter for an absent key
while defaults are enabled. -/
def Op.Mutates {D : Type} : Op D → ConfigManager → Prop
  | .setString key _, _ => ValidKey key
  | .setInt key _, _ => ValidKey key
  | .setDouble key _, _ => ValidKey key
  | .setBool key _, _ => ValidKey key
  | .removeKey key, s => s.config.find key ≠ none
  | .clear, _ => True
  | .getString key _, s => s.config.find key = none ∧ s.enableDefaults = true
  | .getInt key _, s => s.config.find key = none ∧ s.enableDefaults = true
  | .getDouble key _, s => s.config.find key = none ∧ s.enableDefaults = true
  | .getBool key _, s => s.config.find key = none ∧ s.enableDefaults = true
  | .loadConfig _, _ => False
  | .reload, _ => False
  | .saveConfig, _ => False

/-- No key and no value of the map contains a newline. -/
def NoNewline (m : StdMap) : Prop := ∀ p ∈ m, '\n' ∉ p.1 ∧ '\n' ∉ p.2

instance (m : StdMap) : Decidable (NoNewline m) :=
  inferInstanceAs (Decidable (∀ p ∈ m, '\n' ∉ p.1 ∧ '\n' ∉ p.2))

/-- The lines `key=value` of the entries, one per entry, in iteration order. -/
def entryLines (m : StdMap) : List Str := m.map (fun p => p.1 ++ '=' :: p.2)

/-- The character `natDigits` pushes for the last decimal digit of `n`. -/
def digitOf (n : Nat) : Char := Char.ofNat ('0'.toNat + n % 10)

/-- The string `v` consists of the white space `ws`, the optional sign `sign`, the non-empty
run of decimal digits `ds` and the trailing characters `rest`, which do not continue the
run of digits. -/
def IntPrefix (v ws sign ds rest : Str) : Prop :=
  v = ws ++ sign ++ ds ++ rest ∧ (∀ c ∈ ws, isspace c = true) ∧
    (sign = [] ∨ sign = ['-'] ∨ sign = ['+']) ∧ ds ≠ [] ∧ (∀ c ∈ ds, c.isDigit = true) ∧
    (∀ c ∈ rest.take 1, c.isDigit = false)

instance (v ws sign ds rest : Str) : Decidable (IntPrefix v ws sign ds rest) :=
  inferInstanceAs (Decidable (v = ws ++ sign ++ ds ++ rest ∧ (∀ c ∈ ws, isspace c = true) ∧
    (sign = [] ∨ sign = ['-'] ∨ sign = ['+']) ∧ ds ≠ [] ∧ (∀ c ∈ ds, c.isDigit = true) ∧
    (∀ c ∈ rest.take 1, c.isDigit = false)))

/-- The integer that the sign `sign` and the decimal digits `ds` denote. -/
def signedValue (sign ds : Str) : Int :=
  if sign = ['-'] then -(digitsValue 0 ds : Int) else (digitsValue 0 ds : Int)

end ConfigManagerModel

/-!
# Combinations (src/cpp/src/calculator.cpp, src/cpp/src/math_utils.cpp)

`int` is a 32-bit two's-complement integer: a value is an `Int`, and the result of an
arithmetic operation is wrapped into `[-2^31, 2^31)`. A result `none` stands for a run that
delivers no value: a loop that does not end, or a division that traps.
-/

namespace CalculatorModel

/-- The 32-bit `int` that an arithmetic result `x` is stored as. -/
def wrap32 (x : Int) : Int := (x + 2147483648) % 4294967296 - 2147483648

/-- The loop `for (int i = 2; i <= n; i++) result *= i;` of `factorial`, entered with the
current `i` and `result`; `fuel` bounds the number of iterations. -/
def factorialLoop : Nat → Int → Int → Int → Option Int
  | 0, i, n, result => if i ≤ n then none else some result
  | fuel + 1, i, n, result =>
    if i ≤ n then factorialLoop fuel (wrap32 (i + 1)) n (wrap32 (result * i))
    else some result

/-- The function `factorial` of math_utils.cpp. -/
def factorial (n : Int) : Option Int :=
  if n < 0 then some 0
  else if n = 0 ∨ n = 1 then some 1
  else factorialLoop n.toNat 2 n 1

/-- The function `calculate_combinations` of calculator.cpp. The division is the truncating
division of C++; it traps on a zero divisor and on `INT_MIN / -1`. -/
def calculate_combinations (n r : Int) : Option Int :=
  if r > n then some 0
  else if r = 0 ∨ r = n then some 1
  else
    match factorial n, factorial r, factorial (wrap32 (n - r)) with
    | some numerator, some fr, some fnr =>
      let denominator := wrap32 (fr * fnr)
      if denominator = 0 then none
      else if numerator = -2147483648 ∧ denominator = -1 then none
      else some (Int.tdiv numerator denominator)
    | _, _, _ => none

end CalculatorModel

namespace ConfigManagerModel

/-! ## Lemmas: key order and the map -/

theorem strLt_irrefl (a : Str) : strLt a a = false := by
  induction a with
  | nil => rfl
  | cons c cs ih => simp [strLt, ih]

theorem strLt_asymm : ∀ (a b : Str), strLt a b = true → strLt b a = false
  | [], [], _ => rfl
  | [], _ :: _, _ => rfl
  | _ :: _, [], h => by simp [strLt] at h
  | a :: as, b :: bs, h => by
    simp only [strLt] at h ⊢
    by_cases hab : a < b
    · have hba : ¬ b < a := lt_asymm hab
      simp [hba, hab]
    · by_cases hba : b < a
      · simp [hab, hba] at h
      · simp only [hab, hba, if_false] at h ⊢
        exact strLt_asymm as bs h

theorem StdMap.find_assign_same (m : StdMap) (k v : Str) : (m.assign k v).find k = some v := by
  induction m with
  | nil => simp [StdMap.assign, StdMap.find]
  | cons p rest ih =>
    obtain ⟨k1, v1⟩ := p
    simp only [StdMap.assign]
    by_cases h1 : strLt k k1 = true
    · simp [h1, StdMap.find]
    · by_cases h2 : k1 = k
      · subst h2
        simp [h1, StdMap.find]
      · simp [h1, h2, StdMap.find, ih]

theorem StdMap.find_assign_other (m : StdMap) (k v j : Str) (hj : j ≠ k) :
    (m.assign k v).find j = m.find j := by
  induction m with
  | nil => simp [StdMap.assign, StdMap.find, Ne.symm hj]
  | cons p rest ih =>
    obtain ⟨k1, v1⟩ := p
    simp only [StdMap.assign]
    by_cases h1 : strLt k k1 = true
    · simp [h1, StdMap.find, Ne.symm hj]
    · by_cases h2 : k1 = k
      · subst h2
        simp [h1, StdMap.find, Ne.symm hj]
      · simp [h1, h2, StdMap.find, ih]

theorem StdMap.assign_append (m : StdMap) (k v : Str)
    (h : ∀ p ∈ m, strLt p.1 k = true) : m.assign k v = m ++ [(k, v)] := by
  induction m with
  | nil => rfl
  | cons p rest ih =>
    obtain ⟨k1, v1⟩ := p
    have h1 : strLt k1 k = true := h (k1, v1) (List.mem_cons_self _ _)
    have h2 : strLt k k1 = false := strLt_asymm _ _ h1
    have h3 : k1 ≠ k := by
      intro e
      subst e
      rw [strLt_irrefl] at h1
      exact Bool.false_ne_true h1
    simp only [StdMap.assign, h2, h3, if_false, Bool.false_eq_true, List.cons_append]
    rw [ih (fun p hp => h p (List.mem_cons_of_mem _ hp))]

/-- Assigning the pairs of a key-sorted list one after the other, each key larger than all
keys already there, appends them. -/
theorem StdMap.foldl_assign_sorted (acc rest : StdMap) (h : StdMap.Sorted (acc ++ rest)) :
    rest.foldl (fun c p => StdMap.assign c p.1 p.2) acc = acc ++ rest := by
  induction rest generalizing acc with
  | nil => simp
  | cons p rest ih =>
    have hp : ∀ q ∈ acc, strLt q.1 p.1 = true := by
      intro q hq
      have := List.pairwise_append.1 h
      exact this.2.2 q hq p (List.mem_cons_self _ _)
    simp only [List.foldl_cons]
    rw [StdMap.assign_append acc p.1 p.2 hp]
    have h2 : StdMap.Sorted ((acc ++ [(p.1, p.2)]) ++ rest) := by
      simpa [StdMap.Sorted] using h
    rw [ih _ h2]
    simp

/-! ## Lemmas: `trim` -/

theorem find_first_not_of_none (s set : Str) (h : ∀ c ∈ s, c ∈ set) :
    find_first_not_of s set = none := by
  induction s with
  | nil => rfl
  | cons c cs ih =>
    have hc : c ∈ set := h c (List.mem_cons_self _ _)
    simp [find_first_not_of, hc, ih (fun d hd => h d (List.mem_cons_of_mem _ hd))]

theorem find_first_not_of_some (s set : Str) (i : Nat)
    (h : find_first_not_of s set = some i) :
    s.drop i = s.dropWhile (fun c => decide (c ∈ set)) ∧ ∃ c t, s.drop i = c :: t ∧ c ∉ set := by
  induction s generalizing i with
  | nil => simp [find_first_not_of] at h
  | cons c cs ih =>
    by_cases hc : c ∈ set
    · simp only [find_first_not_of, hc, if_true, Option.map_eq_some'] at h
      obtain ⟨j, hj, rfl⟩ := h
      have := ih j hj
      simpa [List.dropWhile, hc] using this
    · simp only [find_first_not_of, hc, if_false, Option.some.injEq] at h
      subst h
      simp [List.dropWhile, hc]

theorem find_last_not_of_of_first (s set : Str) (i : Nat)
    (h : find_first_not_of s set = some i) : ∃ e, find_last_not_of s set = some e := by
  induction s generalizing i with
  | nil => simp [find_first_not_of] at h
  | cons c cs ih =>
    by_cases hc : c ∈ set
    · simp only [find_first_not_of, hc, if_true, Option.map_eq_some'] at h
      obtain ⟨j, hj, _⟩ := h
      obtain ⟨e, he⟩ := ih j hj
      exact ⟨e + 1, by simp [find_last_not_of, he]⟩
    · cases hl : find_last_not_of cs set with
      | none => exact ⟨0, by simp [find_last_not_of, hl, hc]⟩
      | some e => exact ⟨e + 1, by simp [find_last_not_of, hl]⟩

theorem find_last_not_of_none (s set : Str) (h : ∀ c ∈ s, c ∈ set) :
    find_last_not_of s set = none := by
  induction s with
  | nil => rfl
  | cons c cs ih =>
    have hc : c ∈ set := h c (List.mem_cons_self _ _)
    simp [find_last_not_of, hc, ih (fun d hd => h d (List.mem_cons_of_mem _ hd))]

theorem find_last_not_of_append (x post set : Str) (z : Char) (hz : z ∉ set)
    (hpost : ∀ c ∈ post, c ∈ set) :
    find_last_not_of (x ++ z :: post) set = some x.length := by
  induction x with
  | nil => simp [find_last_not_of, find_last_not_of_none post set hpost, hz]
  | cons d x ih => simp [find_last_not_of, ih]

/-- A string that is empty, or begins and ends with characters outside `" \t\r\n"`, is left
as it is by `trim`. -/
theorem trim_id (s : Str)
    (hh : ∀ c, s.head? = some c → c ∉ trimSet) (hl : ∀ c, s.getLast? = some c → c ∉ trimSet) :
    trim s = s := by
  rcases List.eq_nil_or_concat s with rfl | ⟨x, z, rfl⟩
  · rfl
  · have hz : z ∉ trimSet := hl z (by simp)
    have hlast : find_last_not_of (x ++ [z]) trimSet = some x.length :=
      find_last_not_of_append x [] trimSet z hz (by simp)
    have hfirst : find_first_not_of (x ++ [z]) trimSet = some 0 := by
      cases x with
      | nil => simp [find_first_not_of, hz]
      | cons d x =>
        have hd : d ∉ trimSet := hh d (by simp)
        simp [find_first_not_of, hd]
    simp [trim, hfirst, hlast, substr]

/-- The first character of `trim line` is the first character of `line` outside
`" \t\r\n"`. -/
theorem trim_head (s : Str) :
    (trim s).head? = (s.dropWhile (fun c => decide (c ∈ trimSet))).head? := by
  cases hf : find_first_not_of s trimSet with
  | none =>
    have hall : ∀ c ∈ s, c ∈ trimSet := by
      intro c hc
      by_contra hn
      have : ∀ (t : Str), c ∈ t → find_first_not_of t trimSet ≠ none := by
        intro t
        induction t with
        | nil => simp
        | cons d t ih =>
          intro hm
          by_cases hd : d ∈ trimSet
          · have hct : c ∈ t := by
              rcases List.mem_cons.1 hm with e | e
              · exact absurd (e ▸ hd) hn
              · exact e
            simp [find_first_not_of, hd, ih hct]
          · simp [find_first_not_of, hd]
      exact this s hc hf
    have hd : s.dropWhile (fun c => decide (c ∈ trimSet)) = [] := by
      rw [List.dropWhile_eq_nil_iff]
      intro c hc
      simpa using hall c hc
    simp [trim, hf, hd]
  | some i =>
    obtain ⟨e, he⟩ := find_last_not_of_of_first s trimSet i hf
    obtain ⟨h1, c, t, h2, _⟩ := find_first_not_of_some s trimSet i hf
    simp only [trim, hf, he, substr]
    rw [← h1, h2]
    simp

theorem find_first_not_of_all (s set : Str) (h : find_first_not_of s set = none) :
    ∀ c ∈ s, c ∈ set := by
  induction s with
  | nil => simp
  | cons d t ih =>
    by_cases hd : d ∈ set
    · simp only [find_first_not_of, hd, if_true, Option.map_eq_none'] at h
      intro c hc
      rcases List.mem_cons.1 hc with e | e
      · exact e ▸ hd
      · exact ih h c e
    · simp [find_first_not_of, hd] at h

theorem trim_blank (s : Str) (h : ∀ c ∈ s, c ∈ trimSet) : trim s = [] := by
  simp [trim, find_first_not_of_none s trimSet h]

/-! ## Lemmas: `getline` and the written file -/

theorem getlines_line (l rest : Str) (h : '\n' ∉ l) :
    getlines (l ++ '\n' :: rest) = l :: getlines rest := by
  induction l with
  | nil => simp [getlines]
  | cons c l ih =>
    have hc : c ≠ '\n' := fun e => h (e ▸ List.mem_cons_self _ _)
    have hl : '\n' ∉ l := fun e => h (List.mem_cons_of_mem _ e)
    simp [getlines, hc, ih hl]

theorem getlines_serialize (m : StdMap) (h : ∀ p ∈ m, '\n' ∉ p.1 ∧ '\n' ∉ p.2) :
    getlines (serialize m) = m.map (fun p => p.1 ++ '=' :: p.2) := by
  induction m with
  | nil => rfl
  | cons p rest ih =>
    obtain ⟨k, v⟩ := p
    have hkv := h (k, v) (List.mem_cons_self _ _)
    have hline : '\n' ∉ k ++ '=' :: v := by
      simp only [List.mem_append, List.mem_cons, not_or]
      exact ⟨hkv.1, by decide, hkv.2⟩
    have : serialize ((k, v) :: rest) = (k ++ '=' :: v) ++ '\n' :: serialize rest := by
      simp [serialize]
    rw [this, getlines_line _ _ hline, ih (fun q hq => h q (List.mem_cons_of_mem _ hq))]
    simp

/-! ## Lemmas: line parsing -/

theorem find_none_iff (t : Str) (ch : Char) : find t ch = none ↔ ch ∉ t := by
  induction t with
  | nil => simp [find]
  | cons c t ih =>
    by_cases h : c = ch
    · simp [find, h]
    · simp [find, h, ih, Ne.symm h]

theorem find_some_split (t : Str) (pos : Nat) (h : find t '=' = some pos) :
    substr t 0 pos = t.takeWhile (fun c => c != '=') ∧
      substrFrom t (pos + 1) = (t.dropWhile (fun c => c != '=')).drop 1 := by
  induction t generalizing pos with
  | nil => simp [find] at h
  | cons c t ih =>
    by_cases hc : c = '='
    · simp only [find, hc, if_true, Option.some.injEq] at h
      subst h
      simp [substr, substrFrom, hc, List.takeWhile, List.dropWhile]
    · simp only [find, hc, if_false, Option.map_eq_some'] at h
      obtain ⟨j, hj, rfl⟩ := h
      have := ih j hj
      simp only [substr, substrFrom, List.drop_zero] at this
      have hb : (c != '=') = true := by simpa using hc
      simp [substr, substrFrom, List.takeWhile, List.dropWhile, this.1, this.2, hb]

/-- `parseConfigLine` assigns exactly the entry the line denotes. -/
theorem parseConfigLine_eq (s : ConfigManager) (line : Str) :
    parseConfigLine s line =
      match lineEntry line with
      | some (k, v) => { s with config := s.config.assign k v }
      | none => s := by
  unfold parseConfigLine lineEntry
  simp only []
  by_cases h1 : trim line = []
  · simp [h1]
  · by_cases h2 : (trim line).head? = some '#'
    · simp [h2]
    · cases hf : find (trim line) '=' with
      | none =>
        have := (find_none_iff _ _).1 hf
        simp [h1, h2, this]
      | some pos =>
        have hmem : '=' ∈ trim line := by
          by_contra hn
          rw [(find_none_iff _ _).2 hn] at hf
          exact Option.noConfusion hf
        obtain ⟨e1, e2⟩ := find_some_split _ _ hf
        simp only [e1, e2]
        by_cases hk : trim (List.takeWhile (fun c => c != '=') (trim line)) = []
        · simp [h1, h2, hmem, hk]
        · simp [h1, h2, hmem, hk]

theorem foldl_parseConfigLine (s : ConfigManager) (lines : List Str) :
    lines.foldl parseConfigLine s = { s with config := applyLines s.config lines } := by
  induction lines generalizing s with
  | nil => rfl
  | cons l ls ih =>
    simp only [List.foldl_cons, applyLines]
    rw [ih, parseConfigLine_eq]
    cases lineEntry l with
    | none => rfl
    | some kv => rfl

/-! ## Lemmas: keys -/

theorem isValidKey_iff (key : Str) : isValidKey key = true ↔ ValidKey key := by
  unfold isValidKey ValidKey isalnum
  cases key with
  | nil => simp
  | cons c cs =>
    simp only [List.isEmpty_cons, Bool.false_eq_true, if_false, List.all_eq_true, ne_eq,
      reduceCtorEq, not_false_eq_true, true_and]
    constructor
    · intro h d hd
      have := h d hd
      by_cases h1 : d.isAlphanum = true
      · exact Or.inl h1
      · by_cases h2 : d = '_'
        · exact Or.inr (Or.inl h2)
        · by_cases h3 : d = '.'
          · exact Or.inr (Or.inr h3)
          · simp [h1, h2, h3] at this
    · intro h d hd
      rcases h d hd with h1 | h1 | h1 <;> simp [h1]

theorem validChar_not_special (c : Char) (h : c.isAlphanum = true ∨ c = '_' ∨ c = '.') :
    c ∉ trimSet ∧ c ≠ '=' ∧ c ≠ '#' ∧ c ≠ '\n' := by
  have key : ∀ d : Char, d ∈ [' ', '\t', '\r', '\n', '=', '#'] →
      ¬ (d.isAlphanum = true ∨ d = '_' ∨ d = '.') := by decide
  refine ⟨?_, ?_, ?_, ?_⟩
  · intro hc
    refine key c ?_ h
    simp only [trimSet, List.mem_cons, List.mem_singleton, List.not_mem_nil, or_false] at hc ⊢
    tauto
  · intro hc
    exact key c (by simp [hc]) h
  · intro hc
    exact key c (by simp [hc]) h
  · intro hc
    exact key c (by simp [hc]) h

theorem Trimmed.head {v : Str} (h : Trimmed v) : ∀ c, v.head? = some c → c ∉ trimSet :=
  fun c hc hm => (h c hm).1 hc

theorem Trimmed.last {v : Str} (h : Trimmed v) : ∀ c, v.getLast? = some c → c ∉ trimSet :=
  fun c hc hm => (h c hm).2 hc

theorem validKey_trimmed (k : Str) (h : ValidKey k) : Trimmed k := by
  intro c hc
  constructor
  · intro e
    exact (validChar_not_special c (h.2 c (List.mem_of_mem_head? e))).1 hc
  · intro e
    exact (validChar_not_special c (h.2 c (List.mem_of_mem_getLast? e))).1 hc

/-- The line `key=value` that `saveConfig` writes denotes `(key, value)` again when the key is
valid and the value has no blank at either end. -/
theorem lineEntry_written (k v : Str) (hk : ValidKey k) (hv : Trimmed v) :
    lineEntry (k ++ '=' :: v) = some (k, v) := by
  have hchar := fun c hc => validChar_not_special c (hk.2 c hc)
  obtain ⟨a, k1, rfl⟩ := List.exists_cons_of_ne_nil hk.1
  have hline : trim ((a :: k1) ++ '=' :: v) = (a :: k1) ++ '=' :: v := by
    apply trim_id
    · intro c hc
      simp only [List.cons_append, List.head?_cons, Option.some.injEq] at hc
      exact hc ▸ (hchar a (List.mem_cons_self _ _)).1
    · intro c hc
      rw [List.getLast?_append_of_ne_nil _ (by simp)] at hc
      cases v with
      | nil =>
        simp only [List.getLast?_singleton, Option.some.injEq] at hc
        subst hc
        decide
      | cons b v1 =>
        rw [List.getLast?_cons_cons] at hc
        exact hv.last c hc
  have htake : List.takeWhile (fun c => c != '=') ((a :: k1) ++ '=' :: v) = a :: k1 := by
    rw [List.takeWhile_append_of_pos]
    · simp [List.takeWhile]
    · intro c hc
      simpa using (hchar c hc).2.1
  have hdrop : List.dropWhile (fun c => c != '=') ((a :: k1) ++ '=' :: v) = '=' :: v := by
    rw [List.dropWhile_append_of_pos]
    · simp [List.dropWhile]
    · intro c hc
      simpa using (hchar c hc).2.1
  have hkey : trim (a :: k1) = a :: k1 :=
    trim_id _ (validKey_trimmed _ hk).head (validKey_trimmed _ hk).last
  have hval : trim v = v := trim_id _ hv.head hv.last
  have hhash : a ≠ '#' := (hchar a (List.mem_cons_self _ _)).2.2.1
  unfold lineEntry
  simp only [hline, htake, hdrop, hkey]
  simp [hhash, hval]

theorem applyLines_written (c m : StdMap)
    (h : ∀ p ∈ m, ValidKey p.1 ∧ Trimmed p.2) :
    applyLines c (m.map (fun p => p.1 ++ '=' :: p.2)) =
      m.foldl (fun c p => StdMap.assign c p.1 p.2) c := by
  induction m generalizing c with
  | nil => rfl
  | cons p rest ih =>
    have hp := h p (List.mem_cons_self _ _)
    have := ih (c.assign p.1 p.2) (fun q hq => h q (List.mem_cons_of_mem _ hq))
    simp only [applyLines, List.map_cons, List.foldl_cons, lineEntry_written p.1 p.2 hp.1 hp.2]
      at this ⊢
    exact this

/-! ## Lemmas: getters and validation -/

theorem getString_present (s : ConfigManager) (fs : FileSystem) (key d v : Str)
    (h : s.config.find key = some v) : getString s fs key d = (v, s, fs) := by
  simp [getString, h]

theorem getInt_present (s : ConfigManager) (fs : FileSystem) (key v : Str) (d : Int)
    (h : s.config.find key = some v) :
    getInt s fs key d = ((stoi v).getD d, s, fs) := by
  simp only [getInt, getString_present s fs key _ v h]
  cases stoi v <;> rfl

theorem hasKey_iff (s : ConfigManager) (key : Str) :
    hasKey s key = true ↔ ∃ v, s.config.find key = some v := by
  simp [hasKey, Option.isSome_iff_exists]

/-- `validateConfig` never alters the object or the file system: its getters are reached
only for keys that are present. -/
theorem validateConfig_frame (s : ConfigManager) (fs : FileSystem) :
    (validateConfig s fs).2 = (s, fs) := by
  unfold validateConfig
  by_cases hreq : requiredKeys.all (fun key => hasKey s key) = true
  · have h := hreq
    simp only [requiredKeys, List.all_cons, List.all_nil, Bool.and_true, Bool.and_eq_true] at h
    obtain ⟨-, h2, h3⟩ := h
    obtain ⟨mt, hmt⟩ := (hasKey_iff _ _).1 h2
    obtain ⟨bs, hbs⟩ := (hasKey_iff _ _).1 h3
    simp only [hreq, Bool.not_true, Bool.false_eq_true, if_false,
      getInt_present s fs _ mt 4 hmt, getInt_present s fs _ bs 100 hbs]
    split <;> [rfl; (split <;> rfl)]
  · simp [hreq]

/-- The flag `validateConfig` returns when the three required keys are present. -/
theorem validateConfig_result (s : ConfigManager) (fs : FileSystem) (om mt bs : Str)
    (h1 : s.config.find "operation_mode".toList = some om)
    (h2 : s.config.find "max_threads".toList = some mt)
    (h3 : s.config.find "batch_size".toList = some bs) :
    (validateConfig s fs).1 =
      (decide (1 ≤ (stoi mt).getD 4 ∧ (stoi mt).getD 4 ≤ 32) &&
        decide (1 ≤ (stoi bs).getD 100 ∧ (stoi bs).getD 100 ≤ 10000)) := by
  have hreq : requiredKeys.all (fun key => hasKey s key) = true := by
    simp only [requiredKeys, List.all_cons, List.all_nil, hasKey, h1, h2, h3,
      Option.isSome_some, Bool.and_self]
  unfold validateConfig
  simp only [hreq, Bool.not_true, Bool.false_eq_true, if_false,
    getInt_present s fs _ mt 4 h2, getInt_present s fs _ bs 100 h3]
  by_cases a : 1 ≤ (stoi mt).getD 4 ∧ (stoi mt).getD 4 ≤ 32
  · by_cases b : 1 ≤ (stoi bs).getD 100 ∧ (stoi bs).getD 100 ≤ 10000
    · have a1 := a.1; have a2 := a.2; have b1 := b.1; have b2 := b.2
      simp [a1, a2, b1, b2, not_lt.2 a1, not_lt.2 a2, not_lt.2 b1, not_lt.2 b2]
    · have a1 := a.1; have a2 := a.2
      have hb : ((stoi bs).getD 100 < 1 ∨ (stoi bs).getD 100 > 10000) := by
        by_contra hn; push_neg at hn; exact b ⟨hn.1, hn.2⟩
      simp [a, b, not_lt.2 a1, not_lt.2 a2, hb]
  · have ha : ((stoi mt).getD 4 < 1 ∨ (stoi mt).getD 4 > 32) := by
      by_contra hn; push_neg at hn; exact a ⟨hn.1, hn.2⟩
    simp [a, ha]

/-! ## Lemmas: `loadConfig` -/

theorem openRead_write (fs : FileSystem) (p data : Str)
    (hw : fs.openWrite p = true) (hr : fs.canRead p = true) :
    (fs.write p data).openRead p = some data := by
  have hp : p.isEmpty = false := by
    simp only [FileSystem.openWrite, Bool.and_eq_true, Bool.not_eq_true'] at hw
    exact hw.1
  simp [FileSystem.openRead, FileSystem.write, hp, hr]

theorem saveConfig_ok (s : ConfigManager) (fs : FileSystem)
    (hw : fs.openWrite s.configFile = true) :
    saveConfig s fs = (true, fs.write s.configFile (serialize s.config)) := by
  have hp : s.configFile.isEmpty = false := by
    simp only [FileSystem.openWrite, Bool.and_eq_true, Bool.not_eq_true'] at hw
    exact hw.1
  simp [saveConfig, hp, hw]

/-- The state after `loadConfig` on a file that opens: the lines are applied to the entries
already there, the path is bound and `loaded` is set; the file system is untouched. -/
theorem loadConfig_opened (s : ConfigManager) (fs : FileSystem) (p content : Str)
    (h : fs.openRead p = some content) :
    (loadConfig s fs p).2 =
      ({ s with configFile := p, config := applyLines s.config (getlines content),
                loaded := true }, fs) := by
  unfold loadConfig
  simp only [h, foldl_parseConfigLine]
  split
  · rename_i hv
    have := validateConfig_frame
      { config := applyLines s.config (getlines content), configFile := p, loaded := true,
        enableValidation := s.enableValidation, enableDefaults := s.enableDefaults,
        autoSave := s.autoSave } fs
    split <;> exact this
  · rfl

theorem loadConfig_opened_result (s : ConfigManager) (fs : FileSystem) (p content : Str)
    (h : fs.openRead p = some content) (hv : s.enableValidation = true) :
    (loadConfig s fs p).1 =
      (validateConfig { s with configFile := p,
                               config := applyLines s.config (getlines content),
                               loaded := true } fs).1 := by
  unfold loadConfig
  simp only [h, foldl_parseConfigLine, hv, if_true]
  split <;> simp_all

/-! ## The claims -/

/-- C1, as stated, fails: the mapping `a ↦ " x"` has a valid key and a value without newline,
is saved successfully, and loads back as `a ↦ "x"`, which differs from the original. -/
theorem C1_roundtrip_untrimmed_value_lost :
    StdMap.Sorted [("a".toList, " x".toList)] ∧
    (∀ p ∈ [("a".toList, " x".toList)], ValidKey p.1 ∧ '\n' ∉ p.2) ∧
    (saveConfig (storeWith [("a".toList, " x".toList)]) emptyFs).1 = true ∧
    (loadConfig ConfigManager.new
        (saveConfig (storeWith [("a".toList, " x".toList)]) emptyFs).2 "f".toList).2.1.config
      = [("a".toList, "x".toList)] ∧
    (loadConfig ConfigManager.new
        (saveConfig (storeWith [("a".toList, " x".toList)]) emptyFs).2 "f".toList).2.1.config
      ≠ [("a".toList, " x".toList)] := by
  decide

/-- C1 (amended): for every store whose entries have keys in the valid-key grammar and
values that contain no newline and neither begin nor end with a space, tab, carriage return
or line feed, bound to a path that can be written and read, `saveConfig` succeeds and
`loadConfig` of the written file into a newly constructed `ConfigManager` yields entries
identical to the original ones. -/
theorem C1_roundtrip_trimmed_values (a : ConfigManager) (fs : FileSystem)
    (hsorted : StdMap.Sorted a.config)
    (hkeys : ∀ p ∈ a.config, ValidKey p.1)
    (hnl : ∀ p ∈ a.config, '\n' ∉ p.2)
    (htrim : ∀ p ∈ a.config, Trimmed p.2)
    (hw : fs.openWrite a.configFile = true) (hr : fs.canRead a.configFile = true) :
    (saveConfig a fs).1 = true ∧
    (loadConfig ConfigManager.new (saveConfig a fs).2 a.configFile).2.1.config = a.config := by
  rw [saveConfig_ok a fs hw]
  refine ⟨rfl, ?_⟩
  have hopen := openRead_write fs a.configFile (serialize a.config) hw hr
  rw [loadConfig_opened _ _ _ _ hopen]
  have hlines : getlines (serialize a.config) = a.config.map (fun p => p.1 ++ '=' :: p.2) :=
    getlines_serialize a.config
      (fun p hp => ⟨fun hm => (validChar_not_special _ ((hkeys p hp).2 _ hm)).2.2.2 rfl,
        hnl p hp⟩)
  show applyLines [] (getlines (serialize a.config)) = a.config
  rw [hlines, applyLines_written [] a.config (fun p hp => ⟨hkeys p hp, htrim p hp⟩)]
  have := StdMap.foldl_assign_sorted [] a.config (by simpa using hsorted)
  simpa using this

/-- C1 (amended), applied to the store `a ↦ "x y"`, `b.c ↦ ""` bound to the file `f`. -/
theorem C1_roundtrip_trimmed_values_witness :
    StdMap.Sorted (storeWith [("a".toList, "x y".toList), ("b.c".toList, [])]).config ∧
    (∀ p ∈ (storeWith [("a".toList, "x y".toList), ("b.c".toList, [])]).config,
      ValidKey p.1 ∧ '\n' ∉ p.2 ∧ Trimmed p.2) ∧
    emptyFs.openWrite (storeWith [("a".toList, "x y".toList), ("b.c".toList, [])]).configFile
      = true ∧
    emptyFs.canRead (storeWith [("a".toList, "x y".toList), ("b.c".toList, [])]).configFile
      = true ∧
    ((saveConfig (storeWith [("a".toList, "x y".toList), ("b.c".toList, [])]) emptyFs).1 = true ∧
     (loadConfig ConfigManager.new
        (saveConfig (storeWith [("a".toList, "x y".toList), ("b.c".toList, [])]) emptyFs).2
        (storeWith [("a".toList, "x y".toList), ("b.c".toList, [])]).configFile).2.1.config
      = (storeWith [("a".toList, "x y".toList), ("b.c".toList, [])]).config) :=
  ⟨by decide, by decide, by decide, by decide,
   C1_roundtrip_trimmed_values (storeWith [("a".toList, "x y".toList), ("b.c".toList, [])])
     emptyFs (by decide) (by decide) (by decide) (by decide) (by decide) (by decide)⟩

/-- C2, as stated, fails: with the three required keys present and `max_threads` holding
`abc`, which `stoi` cannot parse, `validateConfig` succeeds (its `getInt` call falls back to
the default `4`). -/
theorem C2_validate_accepts_unparsable :
    hasKey (storeWith [("batch_size".toList, "100".toList), ("max_threads".toList, "abc".toList),
        ("operation_mode".toList, "normal".toList)]) "max_threads".toList = true ∧
    stoi "abc".toList = none ∧
    (validateConfig (storeWith [("batch_size".toList, "100".toList),
        ("max_threads".toList, "abc".toList),
        ("operation_mode".toList, "normal".toList)]) emptyFs).1 = true := by
  decide

/-- C2 (amended): `validateConfig` succeeds if and only if the three required keys
`operation_mode`, `max_threads` and `batch_size` are present, the value of `max_threads`
either is not parseable as an integer or parses to an integer in `[1,32]`, and the value of
`batch_size` either is not parseable as an integer or parses to an integer in `[1,10000]`. -/
theorem C2_validateConfig_iff (s : ConfigManager) (fs : FileSystem) :
    (validateConfig s fs).1 = true ↔
      (hasKey s "operation_mode".toList = true ∧
       (∃ v, s.config.find "max_threads".toList = some v ∧
          (stoi v = none ∨ ∃ n, stoi v = some n ∧ 1 ≤ n ∧ n ≤ 32)) ∧
       (∃ v, s.config.find "batch_size".toList = some v ∧
          (stoi v = none ∨ ∃ n, stoi v = some n ∧ 1 ≤ n ∧ n ≤ 10000))) := by
  have hval : ∀ (v : Str) (d lo hi : Int), lo ≤ d → d ≤ hi →
      ((lo ≤ (stoi v).getD d ∧ (stoi v).getD d ≤ hi) ↔
        (stoi v = none ∨ ∃ n, stoi v = some n ∧ lo ≤ n ∧ n ≤ hi)) := by
    intro v d lo hi h1 h2
    cases stoi v with
    | none => simp [h1, h2]
    | some n => simp
  by_cases hreq : requiredKeys.all (fun key => hasKey s key) = true
  · have h := hreq
    simp only [requiredKeys, List.all_cons, List.all_nil, Bool.and_true, Bool.and_eq_true] at h
    obtain ⟨h1, h2, h3⟩ := h
    obtain ⟨om, hom⟩ := (hasKey_iff _ _).1 h1
    obtain ⟨mt, hmt⟩ := (hasKey_iff _ _).1 h2
    obtain ⟨bs, hbs⟩ := (hasKey_iff _ _).1 h3
    rw [validateConfig_result s fs om mt bs hom hmt hbs]
    simp only [Bool.and_eq_true, decide_eq_true_eq, h1, true_and, hmt, hbs, Option.some.injEq,
      exists_eq_left']
    rw [hval mt 4 1 32 (by decide) (by decide), hval bs 100 1 10000 (by decide) (by decide)]
  · have hfalse : (validateConfig s fs).1 = false := by
      unfold validateConfig
      simp [hreq]
    rw [hfalse]
    constructor
    · intro h
      exact absurd h (by decide)
    · rintro ⟨h1, ⟨mt, hmt, -⟩, ⟨bs, hbs, -⟩⟩
      exfalso
      apply hreq
      simp only [requiredKeys, List.all_cons, List.all_nil, Bool.and_true, Bool.and_eq_true]
      exact ⟨h1, (hasKey_iff _ _).2 ⟨mt, hmt⟩, (hasKey_iff _ _).2 ⟨bs, hbs⟩⟩

theorem createDefaultConfig_new (p : Str) :
    createDefaultConfig { ConfigManager.new with configFile := p } =
      { ConfigManager.new with configFile := p, config := builtinDefaults } := by
  simp only [createDefaultConfig, ConfigManager.new]
  congr 1

/-- C3: `loadConfig` on a newly constructed store with a path that cannot be opened for
reading but can be written returns success, leaves the entries equal to exactly the ten
built-in pairs, and creates the file with the serialization of those pairs (one `key=value`
line each), leaving every other file as it was. -/
theorem C3_default_materialization (fs : FileSystem) (path : Str)
    (hr : fs.openRead path = none) (hw : fs.openWrite path = true) :
    (loadConfig ConfigManager.new fs path).1 = true ∧
    (loadConfig ConfigManager.new fs path).2.1.config = builtinDefaults ∧
    (loadConfig ConfigManager.new fs path).2.2 = fs.write path (serialize builtinDefaults) ∧
    (loadConfig ConfigManager.new fs path).2.2.content path =
      some ("batch_size=100\ncompression_enabled=true\ndatabase_path=data.db\n" ++
        "enable_logging=true\nlog_level=INFO\nmax_threads=4\nnetwork_timeout=30\n" ++
        "operation_mode=normal\nprocessing_threshold=0.8\nretry_count=3\n").toList := by
  have hload : loadConfig ConfigManager.new fs path =
      (true, { ConfigManager.new with configFile := path, config := builtinDefaults },
        fs.write path (serialize builtinDefaults)) := by
    have hdef : ConfigManager.new.enableDefaults = true := rfl
    unfold loadConfig
    simp only [hr, hdef, if_true]
    rw [saveConfig_ok _ fs hw]
    have hc := createDefaultConfig_new path
    simp only [ConfigManager.new] at hc ⊢
    rw [hc]
  rw [hload]
  refine ⟨rfl, rfl, rfl, ?_⟩
  simp only [FileSystem.write, if_true]
  congr 1

/-- C3, applied to the path `f` in a file system without files. -/
theorem C3_default_materialization_witness :
    emptyFs.openRead "f".toList = none ∧ emptyFs.openWrite "f".toList = true ∧
    ((loadConfig ConfigManager.new emptyFs "f".toList).1 = true ∧
    (loadConfig ConfigManager.new emptyFs "f".toList).2.1.config = builtinDefaults ∧
    (loadConfig ConfigManager.new emptyFs "f".toList).2.2 =
      emptyFs.write "f".toList (serialize builtinDefaults) ∧
    (loadConfig ConfigManager.new emptyFs "f".toList).2.2.content "f".toList =
      some ("batch_size=100\ncompression_enabled=true\ndatabase_path=data.db\n" ++
        "enable_logging=true\nlog_level=INFO\nmax_threads=4\nnetwork_timeout=30\n" ++
        "operation_mode=normal\nprocessing_threshold=0.8\nretry_count=3\n").toList) :=
  ⟨by decide, by decide, C3_default_materialization emptyFs "f".toList (by decide) (by decide)⟩

theorem isValidKey_false_of_bad (key : Str)
    (h : key = [] ∨ ∃ c ∈ key, ¬ (c.isAlphanum = true ∨ c = '_' ∨ c = '.')) :
    isValidKey key = false := by
  cases hk : isValidKey key with
  | false => rfl
  | true =>
    have hv := (isValidKey_iff key).1 hk
    rcases h with h | ⟨c, hc, hn⟩
    · exact absurd h hv.1
    · exact absurd (hv.2 c hc) hn

/-- C4: for every key that is empty or contains a character other than an alphanumeric, `_`
or `.`, and for every value, `setString`, `setInt`, `setDouble` and `setBool` leave the store
(its entries in particular) and the file system exactly unchanged. -/
theorem C4_invalid_key_rejected {D : Type} (toStr : D → Str)
    (s : ConfigManager) (fs : FileSystem) (key : Str)
    (h : key = [] ∨ ∃ c ∈ key, ¬ (c.isAlphanum = true ∨ c = '_' ∨ c = '.'))
    (v : Str) (n : Int) (x : D) (b : Bool) :
    setString s fs key v = (s, fs) ∧ setInt s fs key n = (s, fs) ∧
    setDouble toStr s fs key x = (s, fs) ∧ setBool s fs key b = (s, fs) := by
  have hk := isValidKey_false_of_bad key h
  simp [setString, setInt, setDouble, setBool, hk]

/-- C4, applied to the key `bad key!` on a store holding `a ↦ "1"`. -/
theorem C4_invalid_key_rejected_witness :
    ("bad key!".toList = [] ∨
      ∃ c ∈ "bad key!".toList, ¬ (c.isAlphanum = true ∨ c = '_' ∨ c = '.')) ∧
    (setString (storeWith [("a".toList, "1".toList)]) emptyFs "bad key!".toList "x".toList
        = (storeWith [("a".toList, "1".toList)], emptyFs) ∧
     setInt (storeWith [("a".toList, "1".toList)]) emptyFs "bad key!".toList 7
        = (storeWith [("a".toList, "1".toList)], emptyFs) ∧
     setDouble to_string (storeWith [("a".toList, "1".toList)]) emptyFs "bad key!".toList 7
        = (storeWith [("a".toList, "1".toList)], emptyFs) ∧
     setBool (storeWith [("a".toList, "1".toList)]) emptyFs "bad key!".toList true
        = (storeWith [("a".toList, "1".toList)], emptyFs)) :=
  ⟨by decide,
   C4_invalid_key_rejected to_string (storeWith [("a".toList, "1".toList)]) emptyFs
     "bad key!".toList (by decide) "x".toList 7 7 true⟩

/-! ## Lemmas: which keys a call can add -/

theorem StdMap.mem_assign (m : StdMap) (k v : Str) (p : Str × Str)
    (h : p ∈ m.assign k v) : p ∈ m ∨ p = (k, v) := by
  induction m with
  | nil =>
    simp only [StdMap.assign, List.mem_singleton] at h
    exact Or.inr h
  | cons q rest ih =>
    obtain ⟨k1, v1⟩ := q
    simp only [StdMap.assign] at h
    by_cases h1 : strLt k k1 = true
    · simp only [h1, if_true, List.mem_cons] at h
      rcases h with h | h | h
      · exact Or.inr h
      · exact Or.inl (h ▸ List.mem_cons_self _ _)
      · exact Or.inl (List.mem_cons_of_mem _ h)
    · by_cases h2 : k1 = k
      · subst h2
        simp only [h1, Bool.false_eq_true, if_false, if_true, List.mem_cons] at h
        rcases h with h | h
        · exact Or.inr h
        · exact Or.inl (List.mem_cons_of_mem _ h)
      · simp only [h1, h2, Bool.false_eq_true, if_false, List.mem_cons] at h
        rcases h with h | h
        · exact Or.inl (h ▸ List.mem_cons_self _ _)
        · rcases ih h with h | h
          · exact Or.inl (List.mem_cons_of_mem _ h)
          · exact Or.inr h

theorem StdMap.mem_erase (m : StdMap) (k : Str) (p : Str × Str)
    (h : p ∈ m.erase k) : p ∈ m := by
  induction m with
  | nil => simp [StdMap.erase] at h
  | cons q rest ih =>
    obtain ⟨k1, v1⟩ := q
    simp only [StdMap.erase] at h
    by_cases h2 : k1 = k
    · simp only [h2, if_true] at h
      exact List.mem_cons_of_mem _ h
    · simp only [h2, if_false, List.mem_cons] at h
      rcases h with h | h
      · exact h ▸ List.mem_cons_self _ _
      · exact List.mem_cons_of_mem _ (ih h)

theorem KeysInGrammar.assign {m : StdMap} (h : KeysInGrammar m) (k v : Str) (hk : ValidKey k) :
    KeysInGrammar (m.assign k v) := by
  intro p hp
  rcases StdMap.mem_assign m k v p hp with h1 | h1
  · exact h p h1
  · rw [h1]
    exact hk

theorem KeysInGrammar.applyLines {m : StdMap} (h : KeysInGrammar m) (lines : List Str)
    (hl : ∀ line ∈ lines, ∀ k v, lineEntry line = some (k, v) → ValidKey k) :
    KeysInGrammar (applyLines m lines) := by
  induction lines generalizing m with
  | nil => exact h
  | cons l ls ih =>
    have hrest := fun line hm => hl line (List.mem_cons_of_mem _ hm)
    simp only [ConfigManagerModel.applyLines, List.foldl_cons]
    cases he : lineEntry l with
    | none => exact ih h hrest
    | some kv =>
      obtain ⟨k, v⟩ := kv
      exact ih (h.assign k v (hl l (List.mem_cons_self _ _) k v he)) hrest

theorem getString_config (s : ConfigManager) (fs : FileSystem) (key d : Str) :
    (getString s fs key d).2.1.config = s.config ∨
      (getString s fs key d).2.1.config = s.config.assign key d := by
  unfold getString
  cases s.config.find key with
  | some v => exact Or.inl rfl
  | none =>
    by_cases h1 : s.enableDefaults = true
    · by_cases h2 : s.autoSave = true
      · simp [h1, h2]
      · simp [h1, h2]
    · simp [h1]

theorem getInt_state (s : ConfigManager) (fs : FileSystem) (key : Str) (d : Int) :
    (getInt s fs key d).2 = (getString s fs key (to_string d)).2 := by
  unfold getInt
  simp only []
  split <;> rfl

theorem getDouble_state {D : Type} (toStr : D → Str) (stod : Str → Option D)
    (s : ConfigManager) (fs : FileSystem) (key : Str) (d : D) :
    (getDouble toStr stod s fs key d).2 = (getString s fs key (toStr d)).2 := by
  unfold getDouble
  simp only []
  split <;> rfl

theorem getBool_state (s : ConfigManager) (fs : FileSystem) (key : Str) (d : Bool) :
    (getBool s fs key d).2 =
      (getString s fs key (if d then "true".toList else "false".toList)).2 := by
  rfl

theorem KeysInGrammar.getString {s : ConfigManager} (h : KeysInGrammar s.config)
    (fs : FileSystem) (key d : Str) (hk : ValidKey key) :
    KeysInGrammar (getString s fs key d).2.1.config := by
  rcases getString_config s fs key d with e | e
  · rw [e]; exact h
  · rw [e]; exact h.assign key d hk

theorem KeysInGrammar.setString {s : ConfigManager} (h : KeysInGrammar s.config)
    (fs : FileSystem) (key v : Str) :
    KeysInGrammar (setString s fs key v).1.config := by
  unfold ConfigManagerModel.setString
  by_cases hk : isValidKey key = true
  · have hv := (isValidKey_iff key).1 hk
    by_cases h2 : s.autoSave = true
    · simp only [hk, h2, if_true]
      exact h.assign key v hv
    · simp only [hk, h2, if_true, if_false]
      exact h.assign key v hv
  · simp only [hk, if_false]
    exact h

theorem KeysInGrammar.createDefaultConfig {s : ConfigManager} (h : KeysInGrammar s.config) :
    KeysInGrammar (createDefaultConfig s).config := by
  unfold ConfigManagerModel.createDefaultConfig
  simp only []
  repeat first
    | exact h
    | refine KeysInGrammar.assign ?_ _ _ (by decide)

theorem KeysInGrammar.loadConfig {s : ConfigManager} (h : KeysInGrammar s.config)
    (fs : FileSystem) (p : Str) (hf : FileKeysValid fs p) :
    KeysInGrammar (loadConfig s fs p).2.1.config := by
  cases hopen : fs.openRead p with
  | some content =>
    rw [loadConfig_opened s fs p content hopen]
    exact h.applyLines _ (hf content hopen)
  | none =>
    unfold ConfigManagerModel.loadConfig
    simp only [hopen]
    by_cases hd : s.enableDefaults = true
    · simp only [hd, if_true]
      exact KeysInGrammar.createDefaultConfig h
    · simp only [hd, if_false]
      exact h

/-- One call whose arguments and input file carry only valid keys keeps every key of the
entries in the grammar. -/
theorem KeysInGrammar.run {D : Type} (toStr : D → Str) (stod : Str → Option D)
    (op : Op D) (st : ConfigManager × FileSystem)
    (h : KeysInGrammar st.1.config) (hop : op.KeysValid st) :
    KeysInGrammar (op.run toStr stod st).1.config := by
  obtain ⟨s, fs⟩ := st
  cases op with
  | loadConfig filename => exact h.loadConfig fs filename hop
  | reload =>
    simp only [Op.run, ConfigManagerModel.reload]
    by_cases he : s.configFile.isEmpty = true
    · simp only [he, if_true]
      exact h
    · simp only [he, if_false]
      exact h.loadConfig fs s.configFile hop
  | getString key d => exact h.getString fs key d hop
  | getInt key d =>
    simp only [Op.run, getInt_state]
    exact h.getString fs key _ hop
  | getDouble key d =>
    simp only [Op.run, getDouble_state]
    exact h.getString fs key _ hop
  | getBool key d =>
    simp only [Op.run, getBool_state]
    exact h.getString fs key _ hop
  | setString key v => exact h.setString fs key v
  | setInt key v => exact h.setString fs key _
  | setDouble key v => exact h.setString fs key _
  | setBool key v => exact h.setString fs key _
  | removeKey key =>
    simp only [Op.run, ConfigManagerModel.removeKey]
    cases s.config.find key with
    | none => exact h
    | some v =>
      have : KeysInGrammar (s.config.erase key) :=
        fun p hp => h p (StdMap.mem_erase _ _ _ hp)
      by_cases h2 : s.autoSave = true
      · simp only [h2, if_true]
        exact this
      · simp only [h2, if_false]
        exact this
  | clear =>
    simp only [Op.run, ConfigManagerModel.clear]
    by_cases h2 : s.autoSave = true
    · simp only [h2, if_true]
      intro p hp
      exact absurd hp (List.not_mem_nil _)
    · simp only [h2, if_false]
      intro p hp
      exact absurd hp (List.not_mem_nil _)
  | saveConfig => exact h

theorem KeysInGrammar.runOps {D : Type} (toStr : D → Str) (stod : Str → Option D)
    (ops : List (Op D)) (st : ConfigManager × FileSystem)
    (h : KeysInGrammar st.1.config) (hops : OpsKeysValid toStr stod ops st) :
    KeysInGrammar (runOps toStr stod ops st).1.config := by
  induction ops generalizing st with
  | nil => exact h
  | cons op ops ih =>
    simp only [ConfigManagerModel.runOps, List.foldl_cons]
    exact ih _ (KeysInGrammar.run toStr stod op st h hops.1) hops.2

/-- C5, as stated, fails: loading a file whose only line is `bad key!=x` into a newly
constructed store leaves the key `bad key!` in the entries, and `getString` with the empty key
on a newly constructed store leaves the empty key in the entries. -/
theorem C5_invalid_key_reachable :
    (runOps noDoubleToStr noStod [Op.loadConfig "f".toList]
        (ConfigManager.new, oneFileFs "f".toList "bad key!=x\n".toList)).1.config
      = [("bad key!".toList, "x".toList)] ∧
    ¬ ValidKey "bad key!".toList ∧
    (runOps noDoubleToStr noStod [Op.getString [] "d".toList]
        (ConfigManager.new, emptyFs)).1.config = [([], "d".toList)] ∧
    ¬ ValidKey [] := by
  decide

/-- C5 (amended): in every state reachable from a newly constructed store by a sequence of
public calls (`loadConfig`, `reload`, the four getters, the four setters, `removeKey`, `clear`,
`saveConfig`) in which every getter is called with a key in the valid-key grammar and every
file read by `loadConfig` or `reload` has only data lines whose key is in the grammar, every
key in the entries is non-empty and consists only of alphanumeric characters, `_` or `.`. -/
theorem C5_keys_in_grammar {D : Type} (toStr : D → Str) (stod : Str → Option D)
    (ops : List (Op D)) (fs : FileSystem)
    (hops : OpsKeysValid toStr stod ops (ConfigManager.new, fs)) :
    ∀ p ∈ (runOps toStr stod ops (ConfigManager.new, fs)).1.config,
      p.1 ≠ [] ∧ ∀ c ∈ p.1, c.isAlphanum = true ∨ c = '_' ∨ c = '.' :=
  KeysInGrammar.runOps toStr stod ops (ConfigManager.new, fs)
    (fun _ hp => absurd hp (List.not_mem_nil _)) hops

theorem fileKeysValid_example : FileKeysValid (oneFileFs "f".toList "k=v\n".toList) "f".toList := by
  intro content hc line hl k v he
  have hopen : (oneFileFs "f".toList "k=v\n".toList).openRead "f".toList
      = some "k=v\n".toList := by decide
  rw [hopen] at hc
  cases hc
  have hlines : getlines "k=v\n".toList = ["k=v".toList] := by decide
  rw [hlines, List.mem_singleton] at hl
  subst hl
  have hentry : lineEntry "k=v".toList = some ("k".toList, "v".toList) := by decide
  rw [hentry] at he
  cases he
  decide

/-- C5 (amended), applied to a load of the file `k=v` followed by a setter, a getter, a
removal and `clear`. -/
theorem C5_keys_in_grammar_witness :
    OpsKeysValid noDoubleToStr noStod
      [Op.loadConfig "f".toList, Op.setString "a.b".toList "1".toList,
       Op.getBool "flag".toList true, Op.removeKey "k".toList, Op.clear]
      (ConfigManager.new, oneFileFs "f".toList "k=v\n".toList) ∧
    ∀ p ∈ (runOps noDoubleToStr noStod
      [Op.loadConfig "f".toList, Op.setString "a.b".toList "1".toList,
       Op.getBool "flag".toList true, Op.removeKey "k".toList, Op.clear]
      (ConfigManager.new, oneFileFs "f".toList "k=v\n".toList)).1.config,
      p.1 ≠ [] ∧ ∀ c ∈ p.1, c.isAlphanum = true ∨ c = '_' ∨ c = '.' :=
  ⟨⟨fileKeysValid_example, trivial, (by decide : ValidKey "flag".toList), trivial, trivial,
      trivial⟩,
   C5_keys_in_grammar noDoubleToStr noStod _ _
     ⟨fileKeysValid_example, trivial, (by decide : ValidKey "flag".toList), trivial, trivial,
      trivial⟩⟩

/-! ## Lemmas: looking a key up after a load -/

theorem applyLines_cons (c : StdMap) (l : Str) (ls : List Str) :
    applyLines c (l :: ls) =
      applyLines (match lineEntry l with
        | some (k, v) => c.assign k v
        | none => c) ls := rfl

theorem applyLines_append (c : StdMap) (xs ys : List Str) :
    applyLines c (xs ++ ys) = applyLines (applyLines c xs) ys := by
  simp [applyLines, List.foldl_append]

/-- Loading over existing entries: a key the file assigns gets the file's value, any other
key keeps the value it had. -/
theorem find_applyLines (c : StdMap) (lines : List Str) (k : Str) :
    (applyLines c lines).find k =
      match (applyLines [] lines).find k with
      | some v => some v
      | none => c.find k := by
  induction lines generalizing c with
  | nil => rfl
  | cons l ls ih =>
    rw [applyLines_cons, applyLines_cons, ih, ih (match lineEntry l with
        | some (k, v) => StdMap.assign [] k v
        | none => [])]
    cases (applyLines [] ls).find k with
    | some v => rfl
    | none =>
      cases lineEntry l with
      | none => rfl
      | some kv =>
        obtain ⟨k1, v1⟩ := kv
        by_cases hk : k = k1
        · subst hk
          simp [StdMap.find_assign_same]
        · have hk1 : ¬ k1 = k := fun e => hk e.symm
          simp [StdMap.find_assign_other _ _ _ _ hk, StdMap.find, hk1]

/-- Lines that do not assign `k` leave the value stored under `k` as it is. -/
theorem find_applyLines_untouched (c : StdMap) (lines : List Str) (k : Str)
    (h : ∀ line ∈ lines, ∀ v, lineEntry line ≠ some (k, v)) :
    (applyLines c lines).find k = c.find k := by
  induction lines generalizing c with
  | nil => rfl
  | cons l ls ih =>
    rw [applyLines_cons, ih _ (fun line hm => h line (List.mem_cons_of_mem _ hm))]
    cases he : lineEntry l with
    | none => rfl
    | some kv =>
      obtain ⟨k1, v1⟩ := kv
      have hk : k ≠ k1 := by
        intro e
        subst e
        exact h l (List.mem_cons_self _ _) v1 he
      exact StdMap.find_assign_other _ _ _ _ hk

/-! ## The claims, continued -/

/-- C6: for every file that opens, denotes the three required keys and whose `max_threads`
value parses to an integer outside `[1,32]`, `loadConfig` with validation enabled returns
failure, yet afterwards the entries hold every pair the file denotes and `loaded` is true. -/
theorem C6_validation_failure_keeps_entries (s : ConfigManager) (fs : FileSystem)
    (path content mt : Str) (n : Int)
    (hv : s.enableValidation = true)
    (hopen : fs.openRead path = some content)
    (hom : (fileEntries content).find "operation_mode".toList ≠ none)
    (hbs : (fileEntries content).find "batch_size".toList ≠ none)
    (hmt : (fileEntries content).find "max_threads".toList = some mt)
    (hn : stoi mt = some n) (hrange : n < 1 ∨ 32 < n) :
    (loadConfig s fs path).1 = false ∧
    (∀ k v, (fileEntries content).find k = some v →
        (loadConfig s fs path).2.1.config.find k = some v) ∧
    (loadConfig s fs path).2.1.config.find "max_threads".toList = some mt ∧
    (loadConfig s fs path).2.1.loaded = true := by
  have hfind : ∀ k v, (fileEntries content).find k = some v →
      (applyLines s.config (getlines content)).find k = some v := by
    intro k v h
    rw [find_applyLines]
    unfold fileEntries at h
    rw [h]
  refine ⟨?_, ?_, ?_, ?_⟩
  · obtain ⟨om, hom1⟩ := Option.ne_none_iff_exists'.1 hom
    obtain ⟨bs, hbs1⟩ := Option.ne_none_iff_exists'.1 hbs
    rw [loadConfig_opened_result s fs path content hopen hv,
      validateConfig_result _ fs om mt bs (hfind _ _ hom1) (hfind _ _ hmt) (hfind _ _ hbs1)]
    have : ¬ (1 ≤ (stoi mt).getD 4 ∧ (stoi mt).getD 4 ≤ 32) := by
      rw [hn]
      simp only [Option.getD_some]
      omega
    simp [this]
  · intro k v h
    rw [loadConfig_opened s fs path content hopen]
    exact hfind k v h
  · rw [loadConfig_opened s fs path content hopen]
    exact hfind _ _ hmt
  · rw [loadConfig_opened s fs path content hopen]

/-- C6, applied to a newly constructed store and a file with `max_threads=50`. -/
theorem C6_validation_failure_keeps_entries_witness :
    ConfigManager.new.enableValidation = true ∧
    (oneFileFs "f".toList "operation_mode=normal\nmax_threads=50\nbatch_size=100\n".toList).openRead
        "f".toList = some "operation_mode=normal\nmax_threads=50\nbatch_size=100\n".toList ∧
    (fileEntries "operation_mode=normal\nmax_threads=50\nbatch_size=100\n".toList).find
        "max_threads".toList = some "50".toList ∧
    stoi "50".toList = some 50 ∧ ((50 : Int) < 1 ∨ (32 : Int) < 50) ∧
    (fileEntries "operation_mode=normal\nmax_threads=50\nbatch_size=100\n".toList).find
        "operation_mode".toList ≠ none ∧
    (fileEntries "operation_mode=normal\nmax_threads=50\nbatch_size=100\n".toList).find
        "batch_size".toList ≠ none ∧
    ((loadConfig ConfigManager.new
        (oneFileFs "f".toList "operation_mode=normal\nmax_threads=50\nbatch_size=100\n".toList)
        "f".toList).1 = false ∧
     (∀ k v, (fileEntries "operation_mode=normal\nmax_threads=50\nbatch_size=100\n".toList).find k
          = some v →
        (loadConfig ConfigManager.new
          (oneFileFs "f".toList "operation_mode=normal\nmax_threads=50\nbatch_size=100\n".toList)
          "f".toList).2.1.config.find k = some v) ∧
     (loadConfig ConfigManager.new
        (oneFileFs "f".toList "operation_mode=normal\nmax_threads=50\nbatch_size=100\n".toList)
        "f".toList).2.1.config.find "max_threads".toList = some "50".toList ∧
     (loadConfig ConfigManager.new
        (oneFileFs "f".toList "operation_mode=normal\nmax_threads=50\nbatch_size=100\n".toList)
        "f".toList).2.1.loaded = true) :=
  ⟨rfl, by decide, by decide, by decide, by decide, by decide, by decide,
   C6_validation_failure_keeps_entries ConfigManager.new
     (oneFileFs "f".toList "operation_mode=normal\nmax_threads=50\nbatch_size=100\n".toList)
     "f".toList "operation_mode=normal\nmax_threads=50\nbatch_size=100\n".toList "50".toList 50
     rfl (by decide) (by decide) (by decide) (by decide) (by decide) (by decide)⟩

/-- C7: for every key present in the entries whose stored value `stoi` cannot parse and
every default `d`, `getInt` returns `d` (the exception is caught inside) and leaves the store
and the file system unchanged. -/
theorem C7_getInt_fallback (s : ConfigManager) (fs : FileSystem) (key v : Str) (d : Int)
    (h : s.config.find key = some v) (hs : stoi v = none) :
    getInt s fs key d = (d, s, fs) := by
  rw [getInt_present s fs key v d h, hs]
  rfl

/-- C7, applied to `getInt("threshold", 7)` with `threshold ↦ "not-a-number"`. -/
theorem C7_getInt_fallback_witness :
    (storeWith [("threshold".toList, "not-a-number".toList)]).config.find "threshold".toList
      = some "not-a-number".toList ∧
    stoi "not-a-number".toList = none ∧
    getInt (storeWith [("threshold".toList, "not-a-number".toList)]) emptyFs "threshold".toList 7
      = (7, storeWith [("threshold".toList, "not-a-number".toList)], emptyFs) :=
  ⟨by decide, by decide,
   C7_getInt_fallback (storeWith [("threshold".toList, "not-a-number".toList)]) emptyFs
     "threshold".toList "not-a-number".toList 7 (by decide) (by decide)⟩

/-- C8: for every key present in the entries and every default, `getBool` returns true
exactly when the stored value equals `true`, `1` or `yes` up to the case of its letters, and
leaves the store and the file system unchanged; so the default has no influence, the stored
values `TRUE`, `1`, `yes` give true and `false`, `no` and the empty string give false. -/
theorem C8_getBool_present (s : ConfigManager) (fs : FileSystem) (key v : Str) (d : Bool)
    (h : s.config.find key = some v) :
    ((getBool s fs key d).1 = true ↔
      (eqIgnoreCase v "true".toList ∨ eqIgnoreCase v "1".toList ∨ eqIgnoreCase v "yes".toList)) ∧
    (getBool s fs key d).2 = (s, fs) ∧
    (v ∈ ["TRUE".toList, "1".toList, "yes".toList] → (getBool s fs key d).1 = true) ∧
    (v ∈ ["false".toList, "no".toList, []] → (getBool s fs key d).1 = false) := by
  have hres : getBool s fs key d =
      (decide (v.map tolower = "true".toList) || decide (v.map tolower = "1".toList) ||
        decide (v.map tolower = "yes".toList), s, fs) := by
    simp only [getBool, getString_present s fs key _ v h]
  rw [hres]
  refine ⟨?_, rfl, ?_, ?_⟩
  · simp only [Bool.or_eq_true, decide_eq_true_eq, eqIgnoreCase, tolower, or_assoc]
    have e1 : List.map Char.toLower "true".toList = "true".toList := by decide
    have e2 : List.map Char.toLower "1".toList = "1".toList := by decide
    have e3 : List.map Char.toLower "yes".toList = "yes".toList := by decide
    rw [e1, e2, e3]
    rfl
  · intro hv
    simp only [List.mem_cons, List.mem_singleton, List.not_mem_nil, or_false] at hv
    rcases hv with rfl | rfl | rfl <;> (dsimp only; decide)
  · intro hv
    simp only [List.mem_cons, List.mem_singleton, List.not_mem_nil, or_false] at hv
    rcases hv with rfl | rfl | rfl <;> (dsimp only; decide)

/-- C8, applied to `getBool("flag", false)` with `flag ↦ "TRUE"`. -/
theorem C8_getBool_present_witness :
    (storeWith [("flag".toList, "TRUE".toList)]).config.find "flag".toList = some "TRUE".toList ∧
    (getBool (storeWith [("flag".toList, "TRUE".toList)]) emptyFs "flag".toList false).1 = true :=
  ⟨by decide,
   (C8_getBool_present (storeWith [("flag".toList, "TRUE".toList)]) emptyFs "flag".toList
      "TRUE".toList false (by decide)).2.2.1 (by decide)⟩

theorem lineEntry_value (line k v : Str) (h : lineEntry line = some (k, v)) :
    v = trim (((trim line).dropWhile (fun c => c != '=')).drop 1) := by
  unfold lineEntry at h
  simp only [] at h
  split at h
  · exact Option.noConfusion h
  · split at h
    · exact Option.noConfusion h
    · simp only [Option.some.injEq, Prod.mk.injEq] at h
      exact h.2.symm

/-- C9: for every file that opens and in which a key appears on two or more data lines,
after `loadConfig` the value stored under that key is the value of the last such line, that
is the trimmed text after its first `=`. -/
theorem C9_duplicate_key_last_wins (s : ConfigManager) (fs : FileSystem) (path content : Str)
    (l1 l2 l3 : List Str) (a b k va vb : Str)
    (hopen : fs.openRead path = some content)
    (hlines : getlines content = l1 ++ a :: (l2 ++ b :: l3))
    (ha : lineEntry a = some (k, va)) (hb : lineEntry b = some (k, vb))
    (hlast : ∀ line ∈ l3, (lineEntry line).map Prod.fst ≠ some k) :
    (loadConfig s fs path).2.1.config.find k = some vb ∧
    vb = trim (((trim b).dropWhile (fun c => c != '=')).drop 1) := by
  have _ := ha
  have hlast : ∀ line ∈ l3, ∀ v, lineEntry line ≠ some (k, v) := by
    intro line hm v he
    exact hlast line hm (by rw [he]; rfl)
  refine ⟨?_, lineEntry_value b k vb hb⟩
  rw [loadConfig_opened s fs path content hopen, hlines]
  show (applyLines s.config (l1 ++ a :: (l2 ++ b :: l3))).find k = some vb
  have e : l1 ++ a :: (l2 ++ b :: l3) = (l1 ++ a :: l2) ++ b :: l3 := by simp
  rw [e, applyLines_append, applyLines_cons, hb, find_applyLines_untouched _ l3 k hlast]
  exact StdMap.find_assign_same _ _ _

/-- C9, applied to the file `k = 1`, `# note`, `k=2 `, `j=3`. -/
theorem C9_duplicate_key_last_wins_witness :
    (oneFileFs "f".toList "k = 1\n# note\nk=2 \nj=3\n".toList).openRead "f".toList
      = some "k = 1\n# note\nk=2 \nj=3\n".toList ∧
    getlines "k = 1\n# note\nk=2 \nj=3\n".toList
      = [] ++ "k = 1".toList :: (["# note".toList] ++ "k=2 ".toList :: ["j=3".toList]) ∧
    lineEntry "k = 1".toList = some ("k".toList, "1".toList) ∧
    lineEntry "k=2 ".toList = some ("k".toList, "2".toList) ∧
    (∀ line ∈ ["j=3".toList], (lineEntry line).map Prod.fst ≠ some "k".toList) ∧
    ((loadConfig ConfigManager.new (oneFileFs "f".toList "k = 1\n# note\nk=2 \nj=3\n".toList)
        "f".toList).2.1.config.find "k".toList = some "2".toList ∧
     "2".toList = trim (((trim "k=2 ".toList).dropWhile (fun c => c != '=')).drop 1)) :=
  ⟨by decide, by decide, by decide, by decide, by decide,
   C9_duplicate_key_last_wins ConfigManager.new
     (oneFileFs "f".toList "k = 1\n# note\nk=2 \nj=3\n".toList) "f".toList
     "k = 1\n# note\nk=2 \nj=3\n".toList [] ["# note".toList] ["j=3".toList]
     "k = 1".toList "k=2 ".toList "k".toList "1".toList "2".toList
     (by decide) (by decide) (by decide) (by decide) (by decide)⟩

theorem lineEntry_blank (line : Str) (h : ∀ c ∈ line, c ∈ trimSet) : lineEntry line = none := by
  simp [lineEntry, trim_blank line h]

theorem lineEntry_comment (line : Str)
    (h : (line.dropWhile (fun c => decide (c ∈ trimSet))).head? = some '#') :
    lineEntry line = none := by
  have := trim_head line
  rw [h] at this
  simp [lineEntry, this]

/-- C10: for every file that opens and whose every line either consists of blanks only or
has `#` as its first non-blank character, `loadConfig` into a newly constructed store leaves
the entries empty and sets `loaded` to true. -/
theorem C10_comments_and_blanks_skipped (fs : FileSystem) (path content : Str)
    (hopen : fs.openRead path = some content)
    (hlines : ∀ line ∈ getlines content,
      (∀ c ∈ line, c ∈ trimSet) ∨
        (line.dropWhile (fun c => decide (c ∈ trimSet))).head? = some '#') :
    (loadConfig ConfigManager.new fs path).2.1.config = [] ∧
    (loadConfig ConfigManager.new fs path).2.1.loaded = true := by
  rw [loadConfig_opened ConfigManager.new fs path content hopen]
  refine ⟨?_, rfl⟩
  show applyLines [] (getlines content) = []
  have hnone : ∀ (lines : List Str), (∀ line ∈ lines, lineEntry line = none) →
      applyLines [] lines = [] := by
    intro lines
    induction lines with
    | nil => intro _; rfl
    | cons l ls ih =>
      intro h
      rw [applyLines_cons, h l (List.mem_cons_self _ _)]
      exact ih (fun line hm => h line (List.mem_cons_of_mem _ hm))
  apply hnone
  intro line hm
  rcases hlines line hm with hb | hc
  · exact lineEntry_blank line hb
  · exact lineEntry_comment line hc

/-- C10, applied to a file of two comments, an empty line and a line of blanks. -/
theorem C10_comments_and_blanks_skipped_witness :
    (oneFileFs "f".toList "# a=1\n\n  \t\r\n \t# b=2".toList).openRead "f".toList
      = some "# a=1\n\n  \t\r\n \t# b=2".toList ∧
    (∀ line ∈ getlines "# a=1\n\n  \t\r\n \t# b=2".toList,
      (∀ c ∈ line, c ∈ trimSet) ∨
        (line.dropWhile (fun c => decide (c ∈ trimSet))).head? = some '#') ∧
    ((loadConfig ConfigManager.new (oneFileFs "f".toList "# a=1\n\n  \t\r\n \t# b=2".toList)
        "f".toList).2.1.config = [] ∧
     (loadConfig ConfigManager.new (oneFileFs "f".toList "# a=1\n\n  \t\r\n \t# b=2".toList)
        "f".toList).2.1.loaded = true) :=
  ⟨by decide, by decide,
   C10_comments_and_blanks_skipped (oneFileFs "f".toList "# a=1\n\n  \t\r\n \t# b=2".toList)
     "f".toList "# a=1\n\n  \t\r\n \t# b=2".toList (by decide) (by decide)⟩

/-- After a `saveConfig` that can open its file for writing, the bound file holds the
serialization of the entries. -/
theorem saveConfig_content (s : ConfigManager) (fs : FileSystem)
    (hw : fs.openWrite s.configFile = true) :
    (saveConfig s fs).2.content s.configFile = some (serialize s.config) := by
  rw [saveConfig_ok s fs hw]
  simp [FileSystem.write]

/-! ## The claims: line parsing, getters and failed loads -/

/-- C11: `parseConfigLine` changes the entries only as follows: when the trimmed line is
non-empty, does not start with `#`, contains `=`, and the trimmed text before the first `=`
(the key) is non-empty, it sets `entries[key]` to the trimmed text after the first `=`; in
every other case the store is unchanged. In particular the line `k=a=b` stores `a=b` under
`k`. -/
theorem C11_parseConfigLine_reference (s : ConfigManager) (line : Str) :
    parseConfigLine s line =
      (if trim line ≠ [] ∧ (trim line).head? ≠ some '#' ∧ '=' ∈ trim line ∧
          trim ((trim line).takeWhile (fun c => c != '=')) ≠ [] then
        { s with config := (s.config.assign
            (trim ((trim line).takeWhile (fun c => c != '=')))
            (trim (((trim line).dropWhile (fun c => c != '=')).drop 1))) }
      else s) ∧
    parseConfigLine s "k=a=b".toList =
      { s with config := s.config.assign "k".toList "a=b".toList } := by
  constructor
  · rw [parseConfigLine_eq]
    unfold lineEntry
    simp only []
    by_cases h1 : trim line = []
    · simp [h1]
    · by_cases h2 : (trim line).head? = some '#'
      · simp [h2]
      · by_cases h3 : '=' ∈ trim line
        · by_cases h4 : trim ((trim line).takeWhile (fun c => c != '=')) = []
          · simp [h1, h2, h3, h4]
          · simp [h1, h2, h3, h4]
        · simp [h1, h2, h3]
  · rw [parseConfigLine_eq]
    have : lineEntry "k=a=b".toList = some ("k".toList, "a=b".toList) := by decide
    rw [this]

/-- C12: for a key present in the entries `getString` returns the stored value and changes
nothing. For an absent key it returns the default `d`; with defaults disabled nothing
changes; with defaults enabled the entries become the old entries with `key ↦ d` added (the
key reads `d`, every other key reads as before), and with auto-save on the file system is the
one `saveConfig` leaves, so the bound file holds the serialization of the new entries when it
can be written; with auto-save off the file system is unchanged. -/
theorem C12_getString_materializes (s : ConfigManager) (fs : FileSystem) (key d : Str) :
    (∀ v, s.config.find key = some v → getString s fs key d = (v, s, fs)) ∧
    (s.config.find key = none →
      (getString s fs key d).1 = d ∧
      (s.enableDefaults = false → (getString s fs key d).2 = (s, fs)) ∧
      (s.enableDefaults = true →
        (getString s fs key d).2.1 = { s with config := s.config.assign key d } ∧
        (getString s fs key d).2.1.config.find key = some d ∧
        (∀ j, j ≠ key → (getString s fs key d).2.1.config.find j = s.config.find j) ∧
        (s.autoSave = true →
          (getString s fs key d).2.2
            = (saveConfig { s with config := s.config.assign key d } fs).2) ∧
        (s.autoSave = true → fs.openWrite s.configFile = true →
          (getString s fs key d).2.2.content s.configFile
            = some (serialize (s.config.assign key d))) ∧
        (s.autoSave = false → (getString s fs key d).2.2 = fs))) := by
  refine ⟨fun v h => getString_present s fs key d v h, ?_⟩
  intro habs
  refine ⟨?_, ?_, ?_⟩
  · unfold getString
    simp only [habs]
    split
    · split <;> rfl
    · rfl
  · intro hd
    simp [getString, habs, hd]
  · intro hd
    have hstate : (getString s fs key d).2.1 = { s with config := s.config.assign key d } := by
      unfold getString
      simp only [habs, hd, if_true]
      split <;> rfl
    refine ⟨hstate, ?_, ?_, ?_, ?_, ?_⟩
    · rw [hstate]
      exact StdMap.find_assign_same _ _ _
    · intro j hj
      rw [hstate]
      exact StdMap.find_assign_other _ _ _ _ hj
    · intro ha
      simp [getString, habs, hd, ha]
    · intro ha hw
      simp only [getString, habs, hd, ha, if_true]
      exact saveConfig_content _ fs hw
    · intro ha
      simp [getString, habs, hd, ha]

/-- C12, applied to `getString("b", "2")` on the store `a ↦ "1"` bound to the file `f`: the
key is absent, defaults and auto-save are on, and the file is rewritten. -/
theorem C12_getString_materializes_witness :
    (storeWith [("a".toList, "1".toList)]).config.find "b".toList = none ∧
    getString (storeWith [("a".toList, "1".toList)]) emptyFs "a".toList "9".toList
      = ("1".toList, storeWith [("a".toList, "1".toList)], emptyFs) ∧
    (getString (storeWith [("a".toList, "1".toList)]) emptyFs "b".toList "2".toList).1
      = "2".toList ∧
    (getString (storeWith [("a".toList, "1".toList)]) emptyFs "b".toList "2".toList).2.1
      = storeWith [("a".toList, "1".toList), ("b".toList, "2".toList)] ∧
    (getString (storeWith [("a".toList, "1".toList)]) emptyFs "b".toList "2".toList).2.2.content
        "f".toList = some "a=1\nb=2\n".toList :=
  ⟨by decide,
   (C12_getString_materializes (storeWith [("a".toList, "1".toList)]) emptyFs "a".toList
      "9".toList).1 "1".toList (by decide),
   ((C12_getString_materializes (storeWith [("a".toList, "1".toList)]) emptyFs "b".toList
      "2".toList).2 (by decide)).1,
   (((C12_getString_materializes (storeWith [("a".toList, "1".toList)]) emptyFs "b".toList
      "2".toList).2 (by decide)).2.2 (by decide)).1,
   ((((C12_getString_materializes (storeWith [("a".toList, "1".toList)]) emptyFs "b".toList
      "2".toList).2 (by decide)).2.2 (by decide)).2.2.2.2.1 (by decide) (by decide))⟩

/-! ## Lemmas: the built-in defaults over existing entries -/

/-- Assigning a list of pairs over `m`: a key the pairs assign gets their value, any other
key keeps the value it had. -/
theorem find_foldl_assign (m ps : StdMap) (k : Str) :
    (ps.foldl (fun c p => StdMap.assign c p.1 p.2) m).find k =
      match (ps.foldl (fun c p => StdMap.assign c p.1 p.2) []).find k with
      | some v => some v
      | none => m.find k := by
  induction ps generalizing m with
  | nil => rfl
  | cons p ps ih =>
    simp only [List.foldl_cons]
    rw [ih, ih (StdMap.assign [] p.1 p.2)]
    cases (ps.foldl (fun c p => StdMap.assign c p.1 p.2) []).find k with
    | some v => rfl
    | none =>
      by_cases hk : k = p.1
      · subst hk
        simp [StdMap.find_assign_same]
      · have hk1 : ¬ p.1 = k := fun e => hk e.symm
        simp [StdMap.find_assign_other _ _ _ _ hk, StdMap.assign, StdMap.find, hk1]

theorem createDefaultConfig_config (s : ConfigManager) :
    (createDefaultConfig s).config =
      defaultAssignments.foldl (fun c p => StdMap.assign c p.1 p.2) s.config := rfl

/-- After `createDefaultConfig` the ten built-in keys read their default, every other key
reads as before. -/
theorem find_createDefaultConfig (s : ConfigManager) (k : Str) :
    (createDefaultConfig s).config.find k =
      match builtinDefaults.find k with
      | some v => some v
      | none => s.config.find k := by
  rw [createDefaultConfig_config, find_foldl_assign]
  have : defaultAssignments.foldl (fun c p => StdMap.assign c p.1 p.2) [] = builtinDefaults := by
    decide
  rw [this]

theorem createDefaultConfig_fields (s : ConfigManager) :
    createDefaultConfig s = { s with config := (createDefaultConfig s).config } := rfl

/-! ## The claims: failed loads -/

/-- C13, as stated, fails: on a newly constructed store and a path that can be opened neither
for reading nor for writing, `loadConfig` returns failure but the entries, empty before, now
hold the ten built-in defaults. -/
theorem C13_defaults_stay_after_failed_save :
    lockedFs.openRead "f".toList = none ∧ lockedFs.openWrite "f".toList = false ∧
    ConfigManager.new.enableDefaults = true ∧
    (loadConfig ConfigManager.new lockedFs "f".toList).1 = false ∧
    (loadConfig ConfigManager.new lockedFs "f".toList).2.1.config = builtinDefaults ∧
    (loadConfig ConfigManager.new lockedFs "f".toList).2.1.config ≠ ConfigManager.new.config := by
  decide

/-- C13 (amended): if the path can be opened neither for reading nor for writing,
`loadConfig` with defaults enabled returns failure and leaves the file system, the `loaded`
flag and the three options as they were; the backing path is bound to the given path and the
entries are the previous entries with the ten built-in defaults assigned over them (each
built-in key reads its default, every other key reads as before). -/
theorem C13_failed_save_keeps_defaults (s : ConfigManager) (fs : FileSystem) (path : Str)
    (hr : fs.openRead path = none) (hw : fs.openWrite path = false)
    (hd : s.enableDefaults = true) :
    (loadConfig s fs path).1 = false ∧
    (loadConfig s fs path).2.2 = fs ∧
    (loadConfig s fs path).2.1 =
      { s with configFile := path,
               config := (createDefaultConfig { s with configFile := path }).config } ∧
    (∀ p ∈ builtinDefaults, (loadConfig s fs path).2.1.config.find p.1 = some p.2) ∧
    (∀ k, builtinDefaults.find k = none →
      (loadConfig s fs path).2.1.config.find k = s.config.find k) := by
  have hsave : ∀ t : ConfigManager, t.configFile = path → saveConfig t fs = (false, fs) := by
    intro t ht
    unfold saveConfig
    rw [ht]
    by_cases he : path.isEmpty = true
    · simp [he]
    · simp [he, hw]
  have hload : loadConfig s fs path =
      (false, createDefaultConfig { s with configFile := path }, fs) := by
    unfold loadConfig
    simp only [hr, hd, if_true]
    rw [hsave _ rfl]
  rw [hload]
  refine ⟨rfl, rfl, rfl, ?_, ?_⟩
  · intro p hp
    show (createDefaultConfig { s with configFile := path }).config.find p.1 = some p.2
    rw [find_createDefaultConfig]
    have : ∀ q ∈ builtinDefaults, builtinDefaults.find q.1 = some q.2 := by decide
    rw [this p hp]
  · intro k hk
    show (createDefaultConfig { s with configFile := path }).config.find k = s.config.find k
    rw [find_createDefaultConfig, hk]

/-- C13 (amended), applied to the store `a ↦ "1"`, `max_threads ↦ "9"` and a file system
in which nothing can be opened. -/
theorem C13_failed_save_keeps_defaults_witness :
    lockedFs.openRead "g".toList = none ∧ lockedFs.openWrite "g".toList = false ∧
    (storeWith [("a".toList, "1".toList), ("max_threads".toList, "9".toList)]).enableDefaults
      = true ∧
    (loadConfig (storeWith [("a".toList, "1".toList), ("max_threads".toList, "9".toList)])
        lockedFs "g".toList).1 = false ∧
    (loadConfig (storeWith [("a".toList, "1".toList), ("max_threads".toList, "9".toList)])
        lockedFs "g".toList).2.1.config.find "a".toList = some "1".toList ∧
    (loadConfig (storeWith [("a".toList, "1".toList), ("max_threads".toList, "9".toList)])
        lockedFs "g".toList).2.1.config.find "max_threads".toList = some "4".toList :=
  ⟨by decide, by decide, by decide,
   (C13_failed_save_keeps_defaults
      (storeWith [("a".toList, "1".toList), ("max_threads".toList, "9".toList)])
      lockedFs "g".toList (by decide) (by decide) (by decide)).1,
   by decide, by decide⟩

/-! ## Lemmas: the state a call leaves -/

theorem StdMap.find_erase_other (m : StdMap) (k j : Str) (hj : j ≠ k) :
    (m.erase k).find j = m.find j := by
  induction m with
  | nil => rfl
  | cons p rest ih =>
    obtain ⟨k1, v1⟩ := p
    by_cases h : k1 = k
    · subst h
      simp [StdMap.erase, StdMap.find, Ne.symm hj]
    · simp [StdMap.erase, StdMap.find, h, ih]

theorem StdMap.find_assign_ne_none (m : StdMap) (k v j : Str) (h : m.find j ≠ none) :
    (m.assign k v).find j ≠ none := by
  by_cases hj : j = k
  · subst hj
    rw [StdMap.find_assign_same]
    exact Option.some_ne_none _
  · rw [StdMap.find_assign_other _ _ _ _ hj]
    exact h

theorem getString_state (s : ConfigManager) (fs : FileSystem) (key d : Str) :
    (getString s fs key d).2.1 = s ∨
      (getString s fs key d).2.1 = { s with config := s.config.assign key d } := by
  unfold getString
  cases s.config.find key with
  | some v => exact Or.inl rfl
  | none =>
    by_cases h1 : s.enableDefaults = true
    · by_cases h2 : s.autoSave = true
      · simp [h1, h2]
      · simp [h1, h2]
    · simp [h1]

theorem setString_state (s : ConfigManager) (fs : FileSystem) (key v : Str) :
    (setString s fs key v).1 = s ∨
      (setString s fs key v).1 = { s with config := s.config.assign key v } := by
  unfold setString
  by_cases h1 : isValidKey key = true
  · by_cases h2 : s.autoSave = true
    · simp [h1, h2]
    · simp [h1, h2]
  · simp [h1]

theorem removeKey_state (s : ConfigManager) (fs : FileSystem) (key : Str) :
    (removeKey s fs key).1 = s ∨
      (removeKey s fs key).1 = { s with config := s.config.erase key } := by
  unfold removeKey
  cases s.config.find key with
  | none => exact Or.inl rfl
  | some v =>
    by_cases h2 : s.autoSave = true
    · simp [h2]
    · simp [h2]

theorem validateConfig_true_required (s : ConfigManager) (fs : FileSystem)
    (h : (validateConfig s fs).1 = true) : RequiredPresent s.config := by
  by_cases hreq : requiredKeys.all (fun key => hasKey s key) = true
  · intro k hk
    have := List.all_eq_true.1 hreq k hk
    simp only [hasKey, Option.isSome_iff_exists] at this
    obtain ⟨v, hv⟩ := this
    rw [hv]
    exact Option.some_ne_none _
  · unfold validateConfig at h
    simp [hreq] at h

theorem requiredPresent_createDefaultConfig (s : ConfigManager) :
    RequiredPresent (createDefaultConfig s).config := by
  intro k hk
  rw [find_createDefaultConfig]
  have hreq : RequiredPresent builtinDefaults := by decide
  obtain ⟨v, hv⟩ := Option.ne_none_iff_exists'.1 (hreq k hk)
  rw [hv]
  exact Option.some_ne_none _

/-- The property carried along a sequence of calls: validation is on, and a loaded store
has the three required keys. -/
theorem loadedRequired_run {D : Type} (toStr : D → Str) (stod : Str → Option D)
    (op : Op D) (st : ConfigManager × FileSystem)
    (hv : st.1.enableValidation = true)
    (h : st.1.loaded = true → RequiredPresent st.1.config)
    (hop : op.KeepsRequired st) :
    (op.run toStr stod st).1.enableValidation = true ∧
    ((op.run toStr stod st).1.loaded = true →
      RequiredPresent (op.run toStr stod st).1.config) := by
  obtain ⟨s, fs⟩ := st
  have hload : ∀ path, (fs.openRead path ≠ none → (loadConfig s fs path).1 = true) →
      (loadConfig s fs path).2.1.enableValidation = true ∧
      ((loadConfig s fs path).2.1.loaded = true →
        RequiredPresent (loadConfig s fs path).2.1.config) := by
    intro path hsucc
    cases hopen : fs.openRead path with
    | some content =>
      have hres := hsucc (by rw [hopen]; exact Option.some_ne_none _)
      rw [loadConfig_opened_result s fs path content hopen hv] at hres
      rw [loadConfig_opened s fs path content hopen]
      exact ⟨hv, fun _ => validateConfig_true_required _ fs hres⟩
    | none =>
      unfold loadConfig
      simp only [hopen]
      by_cases hd : s.enableDefaults = true
      · simp only [hd, if_true]
        exact ⟨hv, fun _ => requiredPresent_createDefaultConfig _⟩
      · simp only [hd, if_false]
        exact ⟨hv, h⟩
  have hassign : ∀ (t : ConfigManager) (key v : Str),
      (t = s ∨ t = { s with config := s.config.assign key v }) →
      t.enableValidation = true ∧ (t.loaded = true → RequiredPresent t.config) := by
    intro t key v ht
    rcases ht with rfl | rfl
    · exact ⟨hv, h⟩
    · exact ⟨hv, fun hl k hk => StdMap.find_assign_ne_none _ _ _ _ (h hl k hk)⟩
  cases op with
  | loadConfig filename => exact hload filename hop
  | reload =>
    simp only [Op.run, ConfigManagerModel.reload]
    by_cases he : s.configFile.isEmpty = true
    · simp only [he, if_true]
      exact ⟨hv, h⟩
    · simp only [he, if_false]
      apply hload
      intro hopen
      have := hop hopen
      simpa [ConfigManagerModel.reload, he] using this
  | getString key d => exact hassign _ key d (getString_state s fs key d)
  | getInt key d =>
    simp only [Op.run, getInt_state]
    exact hassign _ key _ (getString_state s fs key _)
  | getDouble key d =>
    simp only [Op.run, getDouble_state]
    exact hassign _ key _ (getString_state s fs key _)
  | getBool key d =>
    simp only [Op.run, getBool_state]
    exact hassign _ key _ (getString_state s fs key _)
  | setString key v => exact hassign _ key v (setString_state s fs key v)
  | setInt key v => exact hassign _ key _ (setString_state s fs key _)
  | setDouble key v => exact hassign _ key _ (setString_state s fs key _)
  | setBool key v => exact hassign _ key _ (setString_state s fs key _)
  | removeKey key =>
    rcases removeKey_state s fs key with e | e
    · simp only [Op.run, e]
      exact ⟨hv, h⟩
    · simp only [Op.run, e]
      refine ⟨hv, fun hl k hk => ?_⟩
      have hne : k ≠ key := fun e => hop hl (e ▸ hk)
      show (s.config.erase key).find k ≠ none
      rw [StdMap.find_erase_other _ _ _ hne]
      exact h hl k hk
  | clear =>
    have hl : s.loaded = false := hop
    simp only [Op.run, ConfigManagerModel.clear]
    by_cases h2 : s.autoSave = true
    · simp only [h2, if_true]
      exact ⟨hv, fun hc => absurd hc (by simp [hl])⟩
    · simp only [h2, if_false]
      exact ⟨hv, fun hc => absurd hc (by simp [hl])⟩
  | saveConfig => exact ⟨hv, h⟩

theorem loadedRequired_runOps {D : Type} (toStr : D → Str) (stod : Str → Option D)
    (ops : List (Op D)) (st : ConfigManager × FileSystem)
    (hv : st.1.enableValidation = true)
    (h : st.1.loaded = true → RequiredPresent st.1.config)
    (hops : OpsKeepRequired toStr stod ops st) :
    (runOps toStr stod ops st).1.loaded = true →
      RequiredPresent (runOps toStr stod ops st).1.config := by
  induction ops generalizing st with
  | nil => exact h
  | cons op ops ih =>
    simp only [runOps, List.foldl_cons]
    have := loadedRequired_run toStr stod op st hv h hops.1
    exact ih _ this.1 this.2 hops.2

/-! ## The claims: the `loaded` flag -/

/-- C15, as stated, fails: loading a file that holds only a comment into a newly constructed
store sets `loaded` although no required key is present, and a successful load followed by
`clear` leaves `loaded` true with empty entries. -/
theorem C15_loaded_without_required_keys :
    (runOps noDoubleToStr noStod [Op.loadConfig "f".toList]
        (ConfigManager.new, oneFileFs "f".toList "# c\n".toList)).1.loaded = true ∧
    hasKey (runOps noDoubleToStr noStod [Op.loadConfig "f".toList]
        (ConfigManager.new, oneFileFs "f".toList "# c\n".toList)).1
      "operation_mode".toList = false ∧
    (loadConfig ConfigManager.new (oneFileFs "f".toList validFileText) "f".toList).1 = true ∧
    (runOps noDoubleToStr noStod [Op.loadConfig "f".toList, Op.clear]
        (ConfigManager.new, oneFileFs "f".toList validFileText)).1.loaded = true ∧
    (runOps noDoubleToStr noStod [Op.loadConfig "f".toList, Op.clear]
        (ConfigManager.new, oneFileFs "f".toList validFileText)).1.config = [] := by
  decide

/-- C15 (amended): in every state reachable from a newly constructed store by a sequence of
public calls in which every `loadConfig` or `reload` that opens its file returns success, and
in which `clear`, and `removeKey` of a required key, are called only while `loaded` is false,
if `loaded` is true then `operation_mode`, `max_threads` and `batch_size` are all present in
the entries. -/
theorem C15_loaded_implies_required {D : Type} (toStr : D → Str) (stod : Str → Option D)
    (ops : List (Op D)) (fs : FileSystem)
    (hops : OpsKeepRequired toStr stod ops (ConfigManager.new, fs))
    (hl : (runOps toStr stod ops (ConfigManager.new, fs)).1.loaded = true) :
    hasKey (runOps toStr stod ops (ConfigManager.new, fs)).1 "operation_mode".toList = true ∧
    hasKey (runOps toStr stod ops (ConfigManager.new, fs)).1 "max_threads".toList = true ∧
    hasKey (runOps toStr stod ops (ConfigManager.new, fs)).1 "batch_size".toList = true := by
  have hreq := loadedRequired_runOps toStr stod ops (ConfigManager.new, fs) rfl
    (fun h => Bool.noConfusion h) hops hl
  have hk : ∀ k ∈ requiredKeys,
      hasKey (runOps toStr stod ops (ConfigManager.new, fs)).1 k = true := by
    intro k hk
    obtain ⟨v, hv⟩ := Option.ne_none_iff_exists'.1 (hreq k hk)
    exact (hasKey_iff _ _).2 ⟨v, hv⟩
  exact ⟨hk _ (by decide), hk _ (by decide), hk _ (by decide)⟩

theorem opsKeepRequired_example :
    OpsKeepRequired noDoubleToStr noStod
      [Op.loadConfig "f".toList, Op.setString "a".toList "1".toList, Op.removeKey "a".toList,
       Op.getInt "max_threads".toList 0, Op.saveConfig]
      (ConfigManager.new, oneFileFs "f".toList validFileText) :=
  ⟨by intro _; decide, trivial, by intro _; decide, trivial, trivial, trivial⟩

/-- C15 (amended), applied to a successful load followed by a setter, a removal of a key
that is not required, a getter and a save. -/
theorem C15_loaded_implies_required_witness :
    OpsKeepRequired noDoubleToStr noStod
      [Op.loadConfig "f".toList, Op.setString "a".toList "1".toList, Op.removeKey "a".toList,
       Op.getInt "max_threads".toList 0, Op.saveConfig]
      (ConfigManager.new, oneFileFs "f".toList validFileText) ∧
    (runOps noDoubleToStr noStod
      [Op.loadConfig "f".toList, Op.setString "a".toList "1".toList, Op.removeKey "a".toList,
       Op.getInt "max_threads".toList 0, Op.saveConfig]
      (ConfigManager.new, oneFileFs "f".toList validFileText)).1.loaded = true ∧
    (hasKey (runOps noDoubleToStr noStod
      [Op.loadConfig "f".toList, Op.setString "a".toList "1".toList, Op.removeKey "a".toList,
       Op.getInt "max_threads".toList 0, Op.saveConfig]
      (ConfigManager.new, oneFileFs "f".toList validFileText)).1 "operation_mode".toList = true ∧
     hasKey (runOps noDoubleToStr noStod
      [Op.loadConfig "f".toList, Op.setString "a".toList "1".toList, Op.removeKey "a".toList,
       Op.getInt "max_threads".toList 0, Op.saveConfig]
      (ConfigManager.new, oneFileFs "f".toList validFileText)).1 "max_threads".toList = true ∧
     hasKey (runOps noDoubleToStr noStod
      [Op.loadConfig "f".toList, Op.setString "a".toList "1".toList, Op.removeKey "a".toList,
       Op.getInt "max_threads".toList 0, Op.saveConfig]
      (ConfigManager.new, oneFileFs "f".toList validFileText)).1 "batch_size".toList = true) :=
  ⟨opsKeepRequired_example, by decide,
   C15_loaded_implies_required noDoubleToStr noStod _ _ opsKeepRequired_example (by decide)⟩

/-- C16: the code at the failing input. On a newly constructed store and a path that cannot
be opened for reading but can be written, `loadConfig` returns success, the entries are the
built-in defaults and the file holds their serialization, yet `loaded` is still false. -/
theorem C16_loaded_false_after_default_materialization :
    emptyFs.openRead "f".toList = none ∧
    ConfigManager.new.enableDefaults = true ∧
    (loadConfig ConfigManager.new emptyFs "f".toList).1 = true ∧
    (loadConfig ConfigManager.new emptyFs "f".toList).2.1.config = builtinDefaults ∧
    (loadConfig ConfigManager.new emptyFs "f".toList).2.2.content "f".toList
      = some (serialize builtinDefaults) ∧
    (loadConfig ConfigManager.new emptyFs "f".toList).2.1.loaded = false :=
  ⟨by decide, by decide, by decide, by decide, rfl, by decide⟩

/-! ## The claims: persistence and setters -/

theorem getString_absent (s : ConfigManager) (fs : FileSystem) (key d : Str)
    (h : s.config.find key = none) (hd : s.enableDefaults = true) (ha : s.autoSave = true) :
    (getString s fs key d).2 =
      ({ s with config := s.config.assign key d },
        (saveConfig { s with config := s.config.assign key d } fs).2) := by
  simp [getString, h, hd, ha]

theorem setString_valid (s : ConfigManager) (fs : FileSystem) (key v : Str)
    (hk : ValidKey key) (ha : s.autoSave = true) :
    setString s fs key v =
      ({ s with config := s.config.assign key v },
        (saveConfig { s with config := s.config.assign key v } fs).2) := by
  have := (isValidKey_iff key).2 hk
  simp [setString, this, ha]

/-- C17, as stated, fails: after `setString("a", "x\ny")` with auto-save on, the file holds
`a=x`, newline, `y`, newline, which `getline` reads as the two lines `a=x` and `y`, although
the entries hold a single pair. -/
theorem C17_value_with_newline_spans_lines :
    ValidKey "a".toList ∧ (storeWith []).autoSave = true ∧
    emptyFs.openWrite (storeWith []).configFile = true ∧
    (setString (storeWith []) emptyFs "a".toList "x\ny".toList).1.config
      = [("a".toList, "x\ny".toList)] ∧
    (setString (storeWith []) emptyFs "a".toList "x\ny".toList).2.content "f".toList
      = some "a=x\ny\n".toList ∧
    getlines "a=x\ny\n".toList = ["a=x".toList, "y".toList] := by
  decide

/-- C17 (amended): with auto-save enabled and the bound backing path writable, after each
mutating operation (a setter with a valid key, `removeKey` of a present key, `clear`, or a
getter that materializes a default) the backing file's content equals the serialization of
the current entries, that is `key=value` followed by a newline for each entry in turn; when
no key and no value contains a newline, the file consists of exactly one `key=value` line
per entry and no other lines. -/
theorem C17_persist_on_write {D : Type} (toStr : D → Str) (stod : Str → Option D)
    (op : Op D) (s : ConfigManager) (fs : FileSystem)
    (ha : s.autoSave = true) (hw : fs.openWrite s.configFile = true) (hm : op.Mutates s) :
    (op.run toStr stod (s, fs)).2.content s.configFile
      = some (serialize (op.run toStr stod (s, fs)).1.config) ∧
    (op.run toStr stod (s, fs)).1.configFile = s.configFile ∧
    (NoNewline (op.run toStr stod (s, fs)).1.config →
      ∀ text, (op.run toStr stod (s, fs)).2.content s.configFile = some text →
        getlines text = entryLines (op.run toStr stod (s, fs)).1.config) := by
  have hstep : ∀ (t : ConfigManager × FileSystem) (m : StdMap),
      t = ({ s with config := m }, (saveConfig { s with config := m } fs).2) →
      t.2.content s.configFile = some (serialize t.1.config) ∧ t.1.configFile = s.configFile := by
    intro t m ht
    subst ht
    exact ⟨saveConfig_content { s with config := m } fs hw, rfl⟩
  have hmain : (op.run toStr stod (s, fs)).2.content s.configFile
      = some (serialize (op.run toStr stod (s, fs)).1.config) ∧
      (op.run toStr stod (s, fs)).1.configFile = s.configFile := by
    cases op with
    | loadConfig filename => exact absurd hm id
    | reload => exact absurd hm id
    | saveConfig => exact absurd hm id
    | getString key d => exact hstep _ _ (getString_absent s fs key d hm.1 hm.2 ha)
    | getInt key d =>
      refine hstep _ (s.config.assign key (to_string d)) ?_
      show (getInt s fs key d).2 = _
      rw [getInt_state]
      exact getString_absent s fs key _ hm.1 hm.2 ha
    | getDouble key d =>
      refine hstep _ (s.config.assign key (toStr d)) ?_
      show (getDouble toStr stod s fs key d).2 = _
      rw [getDouble_state]
      exact getString_absent s fs key _ hm.1 hm.2 ha
    | getBool key d =>
      refine hstep _
        (s.config.assign key (if d then "true".toList else "false".toList)) ?_
      show (getBool s fs key d).2 = _
      rw [getBool_state]
      exact getString_absent s fs key _ hm.1 hm.2 ha
    | setString key v => exact hstep _ _ (setString_valid s fs key v hm ha)
    | setInt key v => exact hstep _ _ (setString_valid s fs key _ hm ha)
    | setDouble key v => exact hstep _ _ (setString_valid s fs key _ hm ha)
    | setBool key v => exact hstep _ _ (setString_valid s fs key _ hm ha)
    | removeKey key =>
      refine hstep _ (s.config.erase key) ?_
      obtain ⟨v, hv⟩ := Option.ne_none_iff_exists'.1 hm
      simp [Op.run, removeKey, hv, ha]
    | clear =>
      refine hstep _ [] ?_
      simp [Op.run, clear, ha]
  refine ⟨hmain.1, hmain.2, ?_⟩
  intro hnl text htext
  rw [hmain.1] at htext
  cases htext
  exact getlines_serialize _ hnl

/-- C17 (amended), applied to `setString("b", "2")` on the store `a ↦ "1"` bound to `f`. -/
theorem C17_persist_on_write_witness :
    (storeWith [("a".toList, "1".toList)]).autoSave = true ∧
    emptyFs.openWrite (storeWith [("a".toList, "1".toList)]).configFile = true ∧
    ValidKey "b".toList ∧
    (setString (storeWith [("a".toList, "1".toList)]) emptyFs "b".toList "2".toList).2.content
        "f".toList
      = some (serialize
          (setString (storeWith [("a".toList, "1".toList)]) emptyFs "b".toList
            "2".toList).1.config) ∧
    serialize (setString (storeWith [("a".toList, "1".toList)]) emptyFs "b".toList
        "2".toList).1.config = "a=1\nb=2\n".toList :=
  ⟨by decide, by decide, by decide,
   (C17_persist_on_write noDoubleToStr noStod (Op.setString "b".toList "2".toList)
      (storeWith [("a".toList, "1".toList)]) emptyFs (by decide) (by decide)
      (by decide : ValidKey "b".toList)).1,
   by decide⟩

/-! ## Lemmas: `to_string` and `stoi` -/

theorem digitsValue_append (a : Nat) (xs ys : Str) :
    digitsValue a (xs ++ ys) = digitsValue (digitsValue a xs) ys := by
  induction xs generalizing a with
  | nil => rfl
  | cons c cs ih => exact ih _

theorem digitChar_spec : ∀ d, d < 10 →
    (Char.ofNat ('0'.toNat + d)).isDigit = true ∧
      (Char.ofNat ('0'.toNat + d)).toNat - '0'.toNat = d := by
  intro d hd
  interval_cases d <;> exact ⟨rfl, rfl⟩

theorem isDigit_not_special (c : Char) (h : c.isDigit = true) :
    isspace c = false ∧ c ≠ '-' ∧ c ≠ '+' := by
  have key : ∀ d ∈ [' ', '\t', '\n', '\x0b', '\x0c', '\r', '-', '+'], d.isDigit = false := by
    decide
  have hne : ∀ d ∈ [' ', '\t', '\n', '\x0b', '\x0c', '\r', '-', '+'], c ≠ d := by
    intro d hd e
    rw [e, key d hd] at h
    exact Bool.false_ne_true h
  refine ⟨?_, hne _ (by simp), hne _ (by simp)⟩
  simp only [isspace, Bool.or_eq_false_iff, decide_eq_false_iff_not]
  exact ⟨⟨⟨⟨⟨hne _ (by simp), hne _ (by simp)⟩, hne _ (by simp)⟩, hne _ (by simp)⟩,
    hne _ (by simp)⟩, hne _ (by simp)⟩

theorem digitOf_spec (n : Nat) :
    (digitOf n).isDigit = true ∧ (digitOf n).toNat - '0'.toNat = n % 10 :=
  digitChar_spec (n % 10) (Nat.mod_lt _ (by decide))

theorem natDigits_succ (fuel n : Nat) (acc : Str) :
    natDigits (fuel + 1) n acc =
      if n / 10 = 0 then digitOf n :: acc else natDigits fuel (n / 10) (digitOf n :: acc) := rfl

theorem digitsValue_snoc (a : Nat) (ds : Str) (c : Char) :
    digitsValue a (ds ++ [c]) = digitsValue a ds * 10 + (c.toNat - '0'.toNat) := by
  rw [digitsValue_append]
  rfl

/-- With enough fuel `natDigits` pushes a non-empty run of digit characters whose value is
`n`. -/
theorem natDigits_spec (fuel n : Nat) (acc : Str) (h : n < fuel) :
    ∃ ds, natDigits fuel n acc = ds ++ acc ∧ ds ≠ [] ∧ (∀ c ∈ ds, c.isDigit = true) ∧
      ∀ a, digitsValue a ds = a * 10 ^ ds.length + n := by
  induction fuel generalizing n acc with
  | zero => exact absurd h (Nat.not_lt_zero _)
  | succ fuel ih =>
    obtain ⟨hd1, hd2⟩ := digitOf_spec n
    rw [natDigits_succ]
    generalize digitOf n = dc at hd1 hd2 ⊢
    by_cases hq : n / 10 = 0
    · refine ⟨[dc], ?_, List.cons_ne_nil _ _, ?_, ?_⟩
      · rw [if_pos hq]
        rfl
      · intro c hc
        rw [List.mem_singleton] at hc
        rw [hc]
        exact hd1
      · intro a
        have e := digitsValue_snoc a [] dc
        rw [List.nil_append] at e
        rw [e, hd2]
        have e0 : digitsValue a [] = a := rfl
        rw [e0, List.length_singleton, pow_one]
        omega
    · have hlt : n / 10 < fuel := by omega
      obtain ⟨ds, h1, _, h3, h4⟩ := ih (n / 10) (dc :: acc) hlt
      refine ⟨ds ++ [dc], ?_, ?_, ?_, ?_⟩
      · rw [if_neg hq, h1, List.append_assoc]
        rfl
      · intro e
        have := congrArg List.length e
        simp at this
      · intro c hc
        rcases List.mem_append.1 hc with hc | hc
        · exact h3 c hc
        · rw [List.mem_singleton] at hc
          rw [hc]
          exact hd1
      · intro a
        rw [digitsValue_snoc, h4 a, hd2, List.length_append, List.length_singleton, pow_succ]
        have := Nat.div_add_mod n 10
        generalize 10 ^ ds.length = P
        generalize n / 10 = q at this ⊢
        generalize n % 10 = r at this ⊢
        subst this
        ring

/-- `stoi` on a non-empty run of digits whose value fits an `int`. -/
theorem stoi_digits (ds : Str) (hne : ds ≠ []) (hall : ∀ c ∈ ds, c.isDigit = true)
    (hmax : (digitsValue 0 ds : Int) ≤ INT_MAX) :
    stoi ds = some (digitsValue 0 ds : Int) := by
  obtain ⟨c, cs, rfl⟩ := List.exists_cons_of_ne_nil hne
  have hc := isDigit_not_special c (hall c (List.mem_cons_self _ _))
  have hbody : List.dropWhile isspace (c :: cs) = c :: cs := by
    simp [List.dropWhile, hc.1]
  have htake : List.takeWhile Char.isDigit (c :: cs) = c :: cs :=
    List.takeWhile_eq_self_iff.2 hall
  have hmin : ¬ ((digitsValue 0 (c :: cs) : Int) < INT_MIN) := by
    have : (0 : Int) ≤ (digitsValue 0 (c :: cs) : Int) := Int.natCast_nonneg _
    unfold INT_MIN
    omega
  unfold stoi
  simp only [hbody]
  simp [hc.2.1, hc.2.2, htake, hmin, not_lt.2 hmax]

/-- `stoi` on a minus sign followed by a non-empty run of digits whose negated value fits an
`int`. -/
theorem stoi_neg_digits (ds : Str) (hne : ds ≠ []) (hall : ∀ c ∈ ds, c.isDigit = true)
    (hmin : INT_MIN ≤ -(digitsValue 0 ds : Int)) :
    stoi ('-' :: ds) = some (-(digitsValue 0 ds : Int)) := by
  have hbody : List.dropWhile isspace ('-' :: ds) = '-' :: ds := by
    have : isspace '-' = false := by decide
    simp [List.dropWhile, this]
  have htake : List.takeWhile Char.isDigit ds = ds := List.takeWhile_eq_self_iff.2 hall
  have hmax : ¬ (-(digitsValue 0 ds : Int) > INT_MAX) := by
    have : (0 : Int) ≤ (digitsValue 0 ds : Int) := Int.natCast_nonneg _
    unfold INT_MAX
    omega
  have hempty : ds.isEmpty = false := by
    cases ds with
    | nil => exact absurd rfl hne
    | cons c cs => rfl
  unfold stoi
  simp only [hbody, htake, hempty]
  simp [not_lt.2 hmin, hmax]

/-- The decimal form `to_string` writes for a 32-bit `int` is read back by `stoi` as the same
number. -/
theorem stoi_to_string (n : Int) (h1 : INT_MIN ≤ n) (h2 : n ≤ INT_MAX) :
    stoi (to_string n) = some n := by
  cases n with
  | ofNat m =>
    obtain ⟨ds, hds, hne, hall, hval⟩ := natDigits_spec (m + 1) m [] (Nat.lt_succ_self _)
    have hv : digitsValue 0 ds = m := by simpa using hval 0
    simp only [to_string, hds, List.append_nil]
    rw [stoi_digits ds hne hall (by rw [hv]; exact h2), hv]
    rfl
  | negSucc m =>
    obtain ⟨ds, hds, hne, hall, hval⟩ := natDigits_spec (m + 2) (m + 1) [] (Nat.lt_succ_self _)
    have hv : digitsValue 0 ds = m + 1 := by simpa using hval 0
    simp only [to_string, hds, List.append_nil]
    rw [stoi_neg_digits ds hne hall (by rw [hv]; exact h1), hv]
    rfl

/-! ## The claims: setters, typed round trip, removal -/

theorem setString_valid_state (s : ConfigManager) (fs : FileSystem) (key v : Str)
    (hk : ValidKey key) :
    (setString s fs key v).1 = { s with config := s.config.assign key v } := by
  have := (isValidKey_iff key).2 hk
  unfold setString
  simp only [this, if_true]
  split <;> rfl

/-- C18: for every key `k` in the valid-key grammar and every string `v`, after
`setString(k, v)` the store differs from the previous one only in its entries, which are the
previous entries with `k` mapped to `v`: `hasKey(k)` is true, `getString(k, d)` returns `v`
for every `d`, and every other key is present exactly when it was before, with its previous
value. -/
theorem C18_setString_postcondition (s : ConfigManager) (fs : FileSystem) (k v : Str)
    (hk : ValidKey k) :
    (setString s fs k v).1 = { s with config := s.config.assign k v } ∧
    hasKey (setString s fs k v).1 k = true ∧
    (∀ d fs2, (getString (setString s fs k v).1 fs2 k d).1 = v) ∧
    (∀ j, j ≠ k → (setString s fs k v).1.config.find j = s.config.find j) ∧
    (∀ j, j ≠ k → hasKey (setString s fs k v).1 j = hasKey s j) := by
  have hstate := setString_valid_state s fs k v hk
  have hfind : (setString s fs k v).1.config.find k = some v := by
    rw [hstate]
    exact StdMap.find_assign_same _ _ _
  have hother : ∀ j, j ≠ k → (setString s fs k v).1.config.find j = s.config.find j := by
    intro j hj
    rw [hstate]
    exact StdMap.find_assign_other _ _ _ _ hj
  refine ⟨hstate, ?_, ?_, hother, ?_⟩
  · exact (hasKey_iff _ _).2 ⟨v, hfind⟩
  · intro d fs2
    rw [getString_present _ fs2 k d v hfind]
  · intro j hj
    simp only [hasKey, hother j hj]

/-- C18, applied to `setString("custom_setting", "test_value")` on the store `a ↦ "1"`. -/
theorem C18_setString_postcondition_witness :
    ValidKey "custom_setting".toList ∧
    (setString (storeWith [("a".toList, "1".toList)]) emptyFs "custom_setting".toList
        "test_value".toList).1
      = storeWith [("a".toList, "1".toList), ("custom_setting".toList, "test_value".toList)] ∧
    hasKey (setString (storeWith [("a".toList, "1".toList)]) emptyFs "custom_setting".toList
        "test_value".toList).1 "custom_setting".toList = true :=
  ⟨by decide,
   (C18_setString_postcondition (storeWith [("a".toList, "1".toList)]) emptyFs
      "custom_setting".toList "test_value".toList (by decide)).1,
   (C18_setString_postcondition (storeWith [("a".toList, "1".toList)]) emptyFs
      "custom_setting".toList "test_value".toList (by decide)).2.1⟩

/-- C19: for every key `k` in the valid-key grammar, every 32-bit signed integer `n` and
every default `d`, `setInt(k, n)` followed by `getInt(k, d)` returns `n`: the decimal string
that `setInt` stores is parsed back by `stoi` to the same integer. -/
theorem C19_setInt_getInt_roundtrip (s : ConfigManager) (fs : FileSystem) (k : Str)
    (n d : Int) (hk : ValidKey k) (hmin : INT_MIN ≤ n) (hmax : n ≤ INT_MAX) :
    (getInt (setInt s fs k n).1 (setInt s fs k n).2 k d).1 = n ∧
    (setInt s fs k n).1.config.find k = some (to_string n) ∧
    stoi (to_string n) = some n := by
  have hfind : (setInt s fs k n).1.config.find k = some (to_string n) := by
    unfold setInt
    rw [setString_valid_state s fs k _ hk]
    exact StdMap.find_assign_same _ _ _
  have hparse := stoi_to_string n hmin hmax
  refine ⟨?_, hfind, hparse⟩
  rw [getInt_present _ _ k (to_string n) d hfind, hparse]
  rfl

/-- C19, applied to `setInt("timeout_seconds", -2147483648)` followed by
`getInt("timeout_seconds", 60)`. -/
theorem C19_setInt_getInt_roundtrip_witness :
    ValidKey "timeout_seconds".toList ∧ INT_MIN ≤ (-2147483648 : Int) ∧
    (-2147483648 : Int) ≤ INT_MAX ∧
    ((getInt (setInt ConfigManager.new emptyFs "timeout_seconds".toList (-2147483648)).1
        (setInt ConfigManager.new emptyFs "timeout_seconds".toList (-2147483648)).2
        "timeout_seconds".toList 60).1 = -2147483648 ∧
     (setInt ConfigManager.new emptyFs "timeout_seconds".toList (-2147483648)).1.config.find
        "timeout_seconds".toList = some (to_string (-2147483648)) ∧
     stoi (to_string (-2147483648)) = some (-2147483648)) :=
  ⟨by decide, by decide, by decide,
   C19_setInt_getInt_roundtrip ConfigManager.new emptyFs "timeout_seconds".toList
     (-2147483648) 60 (by decide) (by decide) (by decide)⟩

theorem StdMap.find_none_of_keys_ne (m : StdMap) (k : Str) (h : ∀ p ∈ m, p.1 ≠ k) :
    m.find k = none := by
  induction m with
  | nil => rfl
  | cons p rest ih =>
    obtain ⟨k1, v1⟩ := p
    have h1 : k1 ≠ k := h (k1, v1) (List.mem_cons_self _ _)
    simp only [StdMap.find, h1, if_false]
    exact ih (fun q hq => h q (List.mem_cons_of_mem _ hq))

/-- In a map with strictly ascending keys, erasing a key leaves no entry with that key. -/
theorem StdMap.find_erase_same (m : StdMap) (k : Str) (hs : StdMap.Sorted m) :
    (m.erase k).find k = none := by
  induction m with
  | nil => rfl
  | cons p rest ih =>
    obtain ⟨k1, v1⟩ := p
    have hp := List.pairwise_cons.1 hs
    by_cases h : k1 = k
    · subst h
      simp only [StdMap.erase, if_true]
      apply StdMap.find_none_of_keys_ne
      intro q hq e
      have hlt := hp.1 q hq
      rw [e, strLt_irrefl] at hlt
      exact Bool.false_ne_true hlt
    · simp only [StdMap.erase, StdMap.find, h, if_false]
      exact ih hp.2

/-- C20: for every store state (its entries a `std::map`, keys strictly ascending) and every
key `k`, after `removeKey(k)` the key `k` is absent and every other key is present exactly
when it was before, with its previous value; when `k` was absent the store and the file
system are left exactly unchanged. -/
theorem C20_removeKey (s : ConfigManager) (fs : FileSystem) (k : Str)
    (hs : StdMap.Sorted s.config) :
    hasKey (removeKey s fs k).1 k = false ∧
    (∀ j, j ≠ k → (removeKey s fs k).1.config.find j = s.config.find j) ∧
    (∀ j, j ≠ k → hasKey (removeKey s fs k).1 j = hasKey s j) ∧
    (s.config.find k = none → removeKey s fs k = (s, fs)) := by
  have hother : ∀ j, j ≠ k → (removeKey s fs k).1.config.find j = s.config.find j := by
    intro j hj
    rcases removeKey_state s fs k with e | e
    · rw [e]
    · rw [e]
      exact StdMap.find_erase_other _ _ _ hj
  refine ⟨?_, hother, ?_, ?_⟩
  · cases hfind : s.config.find k with
    | none => simp [removeKey, hfind, hasKey]
    | some v =>
      have hstate : (removeKey s fs k).1 = { s with config := s.config.erase k } := by
        unfold removeKey
        simp only [hfind]
        split <;> rfl
      simp only [hasKey, hstate, StdMap.find_erase_same _ k hs, Option.isSome_none]
  · intro j hj
    simp only [hasKey, hother j hj]
  · intro hfind
    simp [removeKey, hfind]

/-- C20, applied to `removeKey("custom_setting")` on a store holding that key and one
other. -/
theorem C20_removeKey_witness :
    StdMap.Sorted
      (storeWith [("a".toList, "1".toList), ("custom_setting".toList, "x".toList)]).config ∧
    hasKey (removeKey
      (storeWith [("a".toList, "1".toList), ("custom_setting".toList, "x".toList)]) emptyFs
      "custom_setting".toList).1 "custom_setting".toList = false ∧
    (removeKey
      (storeWith [("a".toList, "1".toList), ("custom_setting".toList, "x".toList)]) emptyFs
      "custom_setting".toList).1.config = [("a".toList, "1".toList)] :=
  ⟨by decide,
   (C20_removeKey
      (storeWith [("a".toList, "1".toList), ("custom_setting".toList, "x".toList)]) emptyFs
      "custom_setting".toList (by decide)).1,
   by decide⟩

/-! ## The claims: `clear`, `getKeys`, `reload` -/

/-- C21: for every store state, after `clear()` the entries are empty (`getKeys` returns the
empty sequence and `hasKey` is false for every key), while the `loaded` flag, the backing path
and the options keep their previous values. -/
theorem C21_clear (s : ConfigManager) (fs : FileSystem) :
    (clear s fs).1 = { s with config := [] } ∧
    (clear s fs).1.config = [] ∧
    getKeys (clear s fs).1 = [] ∧
    (∀ k, hasKey (clear s fs).1 k = false) ∧
    (clear s fs).1.loaded = s.loaded ∧
    (clear s fs).1.configFile = s.configFile := by
  have hstate : (clear s fs).1 = { s with config := [] } := by
    unfold clear
    simp only []
    split <;> rfl
  rw [hstate]
  exact ⟨rfl, rfl, rfl, fun _ => rfl, rfl, rfl⟩

theorem StdMap.find_isSome_iff_mem_keys (m : StdMap) (k : Str) :
    (m.find k).isSome = true ↔ k ∈ m.map (fun pair => pair.1) := by
  induction m with
  | nil => simp [StdMap.find]
  | cons p rest ih =>
    obtain ⟨k1, v1⟩ := p
    by_cases h : k1 = k
    · simp [StdMap.find, h]
    · have h2 : ¬ k = k1 := fun e => h e.symm
      simp [StdMap.find, h, h2, ih]

theorem StdMap.Sorted.nodup_keys {m : StdMap} (hs : StdMap.Sorted m) :
    (m.map (fun pair => pair.1)).Nodup := by
  unfold List.Nodup
  rw [List.pairwise_map]
  refine List.Pairwise.imp ?_ hs
  intro a b hab e
  rw [e, strLt_irrefl] at hab
  exact Bool.false_ne_true hab

/-- C22: for every store state (its entries a `std::map`, keys strictly ascending), `getKeys`
returns every key of the entries exactly once and nothing else: the sequence has no
repetition, a key occurs in it if and only if `hasKey` is true, its length is the number of
entries, and it lists the first components of the entries in iteration order. -/
theorem C22_getKeys (s : ConfigManager) (hs : StdMap.Sorted s.config) :
    (getKeys s).Nodup ∧
    (∀ k, k ∈ getKeys s ↔ hasKey s k = true) ∧
    (getKeys s).length = s.config.length ∧
    getKeys s = s.config.map (fun pair => pair.1) := by
  have hnodup : (getKeys s).Nodup := hs.nodup_keys
  have hmem : ∀ k, k ∈ getKeys s ↔ hasKey s k = true :=
    fun k => (StdMap.find_isSome_iff_mem_keys s.config k).symm
  exact ⟨hnodup, hmem, by simp [getKeys], rfl⟩

/-- C22, applied to a store with the two keys `a` and `b.c`. -/
theorem C22_getKeys_witness :
    StdMap.Sorted (storeWith [("a".toList, "1".toList), ("b.c".toList, [])]).config ∧
    getKeys (storeWith [("a".toList, "1".toList), ("b.c".toList, [])])
      = ["a".toList, "b.c".toList] ∧
    (getKeys (storeWith [("a".toList, "1".toList), ("b.c".toList, [])])).Nodup ∧
    (getKeys (storeWith [("a".toList, "1".toList), ("b.c".toList, [])])).length
      = (storeWith [("a".toList, "1".toList), ("b.c".toList, [])]).config.length :=
  ⟨by decide, by decide,
   (C22_getKeys (storeWith [("a".toList, "1".toList), ("b.c".toList, [])]) (by decide)).1,
   (C22_getKeys (storeWith [("a".toList, "1".toList), ("b.c".toList, [])]) (by decide)).2.2.1⟩

/-- C23: on a store with no bound backing path `reload()` returns failure and changes
nothing; on a store with a bound path it returns the same result and produces the same state
and file system as `loadConfig` called with that path. -/
theorem C23_reload (s : ConfigManager) (fs : FileSystem) :
    (s.configFile = [] → reload s fs = (false, s, fs)) ∧
    (s.configFile ≠ [] → reload s fs = loadConfig s fs s.configFile) := by
  constructor
  · intro h
    simp [reload, h]
  · intro h
    have : s.configFile.isEmpty = false := by
      cases hc : s.configFile with
      | nil => exact absurd hc h
      | cons c cs => rfl
    simp [reload, this]

/-- C23, applied to a newly constructed store (no path bound) and to the store `a ↦ "1"`
bound to the file `f`. -/
theorem C23_reload_witness :
    ConfigManager.new.configFile = [] ∧
    reload ConfigManager.new emptyFs = (false, ConfigManager.new, emptyFs) ∧
    (storeWith [("a".toList, "1".toList)]).configFile ≠ [] ∧
    reload (storeWith [("a".toList, "1".toList)]) (oneFileFs "f".toList validFileText)
      = loadConfig (storeWith [("a".toList, "1".toList)]) (oneFileFs "f".toList validFileText)
          (storeWith [("a".toList, "1".toList)]).configFile :=
  ⟨rfl, (C23_reload ConfigManager.new emptyFs).1 rfl, by decide,
   (C23_reload (storeWith [("a".toList, "1".toList)])
      (oneFileFs "f".toList validFileText)).2 (by decide)⟩

/-! ## The claims: written lines, validation and merging loads -/

/-- C24: for every mapping (a `std::map`, keys strictly ascending) whose keys satisfy
`isValidKey` and whose values contain no newline and neither begin nor end with a space,
tab, carriage return or line feed (the empty value included), the text `saveConfig` writes
splits into one line `key=value` per entry, and passing these lines to `parseConfigLine` on
a store with empty entries reproduces exactly that mapping. -/
theorem C24_written_lines_parse_back (m : StdMap) (base : ConfigManager)
    (hbase : base.config = [])
    (hs : StdMap.Sorted m)
    (hk : ∀ p ∈ m, isValidKey p.1 = true)
    (hnl : ∀ p ∈ m, '\n' ∉ p.2)
    (ht : ∀ p ∈ m, Trimmed p.2) :
    getlines (serialize m) = entryLines m ∧
    ((getlines (serialize m)).foldl parseConfigLine base).config = m := by
  have hv : ∀ p ∈ m, ValidKey p.1 := fun p hp => (isValidKey_iff p.1).1 (hk p hp)
  have hlines : getlines (serialize m) = entryLines m :=
    getlines_serialize m
      (fun p hp => ⟨fun hm => (validChar_not_special _ ((hv p hp).2 _ hm)).2.2.2 rfl, hnl p hp⟩)
  refine ⟨hlines, ?_⟩
  rw [foldl_parseConfigLine, hlines, hbase]
  show applyLines [] (m.map (fun p => p.1 ++ '=' :: p.2)) = m
  rw [applyLines_written [] m (fun p hp => ⟨hv p hp, ht p hp⟩)]
  have := StdMap.foldl_assign_sorted [] m (by simpa using hs)
  simpa using this

/-- C24, applied to the mapping `a ↦ "x = y"`, `b.c ↦ ""`. -/
theorem C24_written_lines_parse_back_witness :
    StdMap.Sorted [("a".toList, "x = y".toList), ("b.c".toList, [])] ∧
    (∀ p ∈ [("a".toList, "x = y".toList), ("b.c".toList, [])],
      isValidKey p.1 = true ∧ '\n' ∉ p.2 ∧ Trimmed p.2) ∧
    (getlines (serialize [("a".toList, "x = y".toList), ("b.c".toList, [])])
      = entryLines [("a".toList, "x = y".toList), ("b.c".toList, [])] ∧
     ((getlines (serialize [("a".toList, "x = y".toList), ("b.c".toList, [])])).foldl
        parseConfigLine ConfigManager.new).config
      = [("a".toList, "x = y".toList), ("b.c".toList, [])]) :=
  ⟨by decide, by decide,
   C24_written_lines_parse_back [("a".toList, "x = y".toList), ("b.c".toList, [])]
     ConfigManager.new rfl (by decide) (by decide) (by decide) (by decide)⟩

/-- C25: for every store state, `validateConfig` leaves the store (its entries in
particular) and the file system unchanged, whatever the options. When a required key is
missing it returns failure from the key loop, before any `getInt` call; when `max_threads`
(respectively `batch_size`) is present, the `getInt` call on it finds the key, so it too
leaves store and file system unchanged and takes no default-materializing branch. -/
theorem C25_validateConfig_pure_read (s : ConfigManager) (fs : FileSystem) :
    (validateConfig s fs).2 = (s, fs) ∧
    ((hasKey s "operation_mode".toList = false ∨ hasKey s "max_threads".toList = false ∨
        hasKey s "batch_size".toList = false) → (validateConfig s fs).1 = false) ∧
    (hasKey s "max_threads".toList = true →
      ∀ d, (getInt s fs "max_threads".toList d).2 = (s, fs)) ∧
    (hasKey s "batch_size".toList = true →
      ∀ d, (getInt s fs "batch_size".toList d).2 = (s, fs)) := by
  refine ⟨validateConfig_frame s fs, ?_, ?_, ?_⟩
  · intro h
    have hreq : requiredKeys.all (fun key => hasKey s key) = false := by
      simp only [requiredKeys, List.all_cons, List.all_nil, Bool.and_true]
      rcases h with h | h | h <;> rw [h]
      · rfl
      · exact Bool.and_false _
      · rw [Bool.and_false]
        exact Bool.and_false _
    unfold validateConfig
    simp [hreq]
  · intro h d
    obtain ⟨v, hv⟩ := (hasKey_iff _ _).1 h
    rw [getInt_present s fs _ v d hv]
  · intro h d
    obtain ⟨v, hv⟩ := (hasKey_iff _ _).1 h
    rw [getInt_present s fs _ v d hv]

/-- C26: for every store state, path and file system, a key present in the entries before
`loadConfig` is still present afterwards. When the file opens, the key has the value the
file denotes for it if some data line assigns it, and its previous value if no data line
does. When the file does not open and defaults are enabled, the key has its built-in default
if it is one of the ten built-in keys, and its previous value otherwise; with defaults
disabled the entries are unchanged. -/
theorem C26_load_merges (s : ConfigManager) (fs : FileSystem) (path k v : Str)
    (h : s.config.find k = some v) :
    (∃ w, (loadConfig s fs path).2.1.config.find k = some w) ∧
    (∀ content, fs.openRead path = some content →
      ((∀ line ∈ getlines content, (lineEntry line).map Prod.fst ≠ some k) →
        (loadConfig s fs path).2.1.config.find k = some v) ∧
      (∀ w, (fileEntries content).find k = some w →
        (loadConfig s fs path).2.1.config.find k = some w)) ∧
    (fs.openRead path = none → s.enableDefaults = true →
      (builtinDefaults.find k = none → (loadConfig s fs path).2.1.config.find k = some v) ∧
      (∀ w, builtinDefaults.find k = some w →
        (loadConfig s fs path).2.1.config.find k = some w)) ∧
    (fs.openRead path = none → s.enableDefaults = false →
      (loadConfig s fs path).2.1.config = s.config) := by
  have hopened : ∀ content, fs.openRead path = some content →
      (loadConfig s fs path).2.1.config.find k =
        match (fileEntries content).find k with
        | some w => some w
        | none => some v := by
    intro content hopen
    rw [loadConfig_opened s fs path content hopen]
    show (applyLines s.config (getlines content)).find k = _
    rw [find_applyLines, h]
    rfl
  have hmissing : fs.openRead path = none → s.enableDefaults = true →
      (loadConfig s fs path).2.1.config.find k =
        match builtinDefaults.find k with
        | some w => some w
        | none => some v := by
    intro hopen hd
    unfold loadConfig
    simp only [hopen, hd, if_true]
    rw [find_createDefaultConfig]
    show _ = _
    simp only [h]
  have hnodef : fs.openRead path = none → s.enableDefaults = false →
      (loadConfig s fs path).2.1.config = s.config := by
    intro hopen hd
    unfold loadConfig
    simp [hopen, hd]
  refine ⟨?_, ?_, ?_, hnodef⟩
  · cases hopen : fs.openRead path with
    | some content =>
      rw [hopened content hopen]
      cases (fileEntries content).find k with
      | some w => exact ⟨w, rfl⟩
      | none => exact ⟨v, rfl⟩
    | none =>
      by_cases hd : s.enableDefaults = true
      · rw [hmissing hopen hd]
        cases builtinDefaults.find k with
        | some w => exact ⟨w, rfl⟩
        | none => exact ⟨v, rfl⟩
      · have hd' : s.enableDefaults = false := by simpa using hd
        rw [hnodef hopen hd']
        exact ⟨v, h⟩
  · intro content hopen
    constructor
    · intro hlines
      rw [loadConfig_opened s fs path content hopen]
      show (applyLines s.config (getlines content)).find k = some v
      rw [find_applyLines_untouched s.config (getlines content) k, h]
      intro line hm w he
      exact hlines line hm (by rw [he]; rfl)
    · intro w hw
      rw [hopened content hopen, hw]
  · intro hopen hd
    constructor
    · intro hk
      rw [hmissing hopen hd, hk]
    · intro w hw
      rw [hmissing hopen hd, hw]

/-- C26, applied to the store `a ↦ "1"`, `max_threads ↦ "9"` and a load of a file that
assigns `max_threads` but not `a`. -/
theorem C26_load_merges_witness :
    (storeWith [("a".toList, "1".toList), ("max_threads".toList, "9".toList)]).config.find
        "a".toList = some "1".toList ∧
    (loadConfig (storeWith [("a".toList, "1".toList), ("max_threads".toList, "9".toList)])
        (oneFileFs "f".toList validFileText) "f".toList).2.1.config.find "a".toList
      = some "1".toList ∧
    (loadConfig (storeWith [("a".toList, "1".toList), ("max_threads".toList, "9".toList)])
        (oneFileFs "f".toList validFileText) "f".toList).2.1.config.find "max_threads".toList
      = some "4".toList :=
  ⟨by decide,
   ((C26_load_merges (storeWith [("a".toList, "1".toList), ("max_threads".toList, "9".toList)])
      (oneFileFs "f".toList validFileText) "f".toList "a".toList "1".toList
      (by decide)).2.1 validFileText (by decide)).1 (by decide),
   ((C26_load_merges (storeWith [("a".toList, "1".toList), ("max_threads".toList, "9".toList)])
      (oneFileFs "f".toList validFileText) "f".toList "max_threads".toList "9".toList
      (by decide)).2.1 validFileText (by decide)).2 "4".toList (by decide)⟩

/-! ## Lemmas: `stoi` on a string with trailing characters -/

theorem takeWhile_digits_append (ds rest : Str) (hall : ∀ c ∈ ds, c.isDigit = true)
    (hrest : ∀ c ∈ rest.take 1, c.isDigit = false) :
    List.takeWhile Char.isDigit (ds ++ rest) = ds := by
  rw [List.takeWhile_append_of_pos hall]
  cases rest with
  | nil => simp
  | cons c cs =>
    have hc : c.isDigit = false := hrest c (by simp)
    simp [List.takeWhile, hc]

/-- `stoi` on white space, an optional sign, digits and trailing characters: the signed value
of the digits when it fits an `int`, a thrown exception otherwise. -/
theorem stoi_leading_integer (v ws sign ds rest : Str) (h : IntPrefix v ws sign ds rest) :
    stoi v =
      if INT_MIN ≤ signedValue sign ds ∧ signedValue sign ds ≤ INT_MAX then
        some (signedValue sign ds)
      else none := by
  obtain ⟨hv, hws, hsign, hne, hall, hrest⟩ := h
  obtain ⟨c, cs, hds⟩ := List.exists_cons_of_ne_nil hne
  have hc := isDigit_not_special c (hall c (by rw [hds]; exact List.mem_cons_self _ _))
  have htake := takeWhile_digits_append ds rest hall hrest
  have hnonneg : (0 : Int) ≤ (digitsValue 0 ds : Int) := Int.natCast_nonneg _
  have hempty : ds.isEmpty = false := by rw [hds]; rfl
  rcases hsign with rfl | rfl | rfl
  · have hbody : List.dropWhile isspace v = c :: (cs ++ rest) := by
      rw [hv, List.append_nil, List.append_assoc, List.dropWhile_append_of_pos hws, hds]
      simp [List.dropWhile, hc.1]
    have htake2 : List.takeWhile Char.isDigit (c :: (cs ++ rest)) = ds := by
      rw [← List.cons_append, ← hds]
      exact htake
    have hsv : signedValue [] ds = (digitsValue 0 ds : Int) := by simp [signedValue]
    rw [hsv]
    unfold stoi
    simp only [hbody]
    by_cases hr : INT_MIN ≤ (digitsValue 0 ds : Int) ∧ (digitsValue 0 ds : Int) ≤ INT_MAX
    · simp [hc.2.1, hc.2.2, htake2, hempty, hr, not_lt.2 hr.1, not_lt.2 hr.2]
    · have hr2 : (digitsValue 0 ds : Int) < INT_MIN ∨ (digitsValue 0 ds : Int) > INT_MAX := by
        by_contra hn
        push_neg at hn
        exact hr ⟨hn.1, hn.2⟩
      simp [hc.2.1, hc.2.2, htake2, hempty, hr, hr2]
  · have hbody : List.dropWhile isspace v = '-' :: (ds ++ rest) := by
      rw [hv, List.append_assoc, List.append_assoc, List.dropWhile_append_of_pos hws]
      have : isspace '-' = false := by decide
      simp [List.dropWhile, this]
    have hsv : signedValue ['-'] ds = -(digitsValue 0 ds : Int) := by simp [signedValue]
    rw [hsv]
    unfold stoi
    simp only [hbody, htake, hempty]
    by_cases hr : INT_MIN ≤ -(digitsValue 0 ds : Int) ∧ -(digitsValue 0 ds : Int) ≤ INT_MAX
    · simp [hr, not_lt.2 hr.1, not_lt.2 hr.2]
    · have hr2 : -(digitsValue 0 ds : Int) < INT_MIN ∨ -(digitsValue 0 ds : Int) > INT_MAX := by
        by_contra hn
        push_neg at hn
        exact hr ⟨hn.1, hn.2⟩
      simp [hr, hr2]
  · have hbody : List.dropWhile isspace v = '+' :: (ds ++ rest) := by
      rw [hv, List.append_assoc, List.append_assoc, List.dropWhile_append_of_pos hws]
      have : isspace '+' = false := by decide
      simp [List.dropWhile, this]
    have hsv : signedValue ['+'] ds = (digitsValue 0 ds : Int) := by
      have : (['+'] : Str) ≠ ['-'] := by decide
      simp [signedValue, this]
    rw [hsv]
    unfold stoi
    simp only [hbody, htake, hempty]
    by_cases hr : INT_MIN ≤ (digitsValue 0 ds : Int) ∧ (digitsValue 0 ds : Int) ≤ INT_MAX
    · simp [hr, not_lt.2 hr.1, not_lt.2 hr.2]
    · have hr2 : (digitsValue 0 ds : Int) < INT_MIN ∨ (digitsValue 0 ds : Int) > INT_MAX := by
        by_contra hn
        push_neg at hn
        exact hr ⟨hn.1, hn.2⟩
      simp [hr, hr2]

/-! ## The claims: integer prefixes and the built-in defaults -/

/-- C27: for every key whose stored value consists of optional leading white space, an
optional sign and a non-empty run of decimal digits denoting an integer `n` in 32-bit range,
followed by any trailing characters, `getInt` returns `n`, whatever the default, and changes
nothing. It falls back to the default only when `stoi` fails, and then every such reading of
the value denotes an integer outside the 32-bit signed range (in particular none exists when
the value has no digit prefix). -/
theorem C27_getInt_leading_integer (s : ConfigManager) (fs : FileSystem) (key v : Str)
    (d : Int) (hfind : s.config.find key = some v) :
    (∀ ws sign ds rest, IntPrefix v ws sign ds rest →
      INT_MIN ≤ signedValue sign ds → signedValue sign ds ≤ INT_MAX →
      getInt s fs key d = (signedValue sign ds, s, fs)) ∧
    (stoi v = none → getInt s fs key d = (d, s, fs)) ∧
    (stoi v = none → ∀ ws sign ds rest, IntPrefix v ws sign ds rest →
      signedValue sign ds < INT_MIN ∨ INT_MAX < signedValue sign ds) := by
  refine ⟨?_, ?_, ?_⟩
  · intro ws sign ds rest hp h1 h2
    rw [getInt_present s fs key v d hfind, stoi_leading_integer v ws sign ds rest hp, if_pos ⟨h1, h2⟩]
    rfl
  · intro hs
    rw [getInt_present s fs key v d hfind, hs]
    rfl
  · intro hs ws sign ds rest hp
    by_contra hn
    push_neg at hn
    rw [stoi_leading_integer v ws sign ds rest hp, if_pos ⟨hn.1, hn.2⟩] at hs
    exact Option.noConfusion hs

/-- C27, applied to the stored values `12abc` and ` -8 threads`. -/
theorem C27_getInt_leading_integer_witness :
    (storeWith [("a".toList, "12abc".toList), ("b".toList, " -8 threads".toList)]).config.find
        "a".toList = some "12abc".toList ∧
    IntPrefix "12abc".toList [] [] "12".toList "abc".toList ∧
    signedValue [] "12".toList = 12 ∧
    getInt (storeWith [("a".toList, "12abc".toList), ("b".toList, " -8 threads".toList)])
        emptyFs "a".toList 7
      = (12, storeWith [("a".toList, "12abc".toList), ("b".toList, " -8 threads".toList)],
          emptyFs) ∧
    IntPrefix " -8 threads".toList " ".toList "-".toList "8".toList " threads".toList ∧
    signedValue "-".toList "8".toList = -8 ∧
    getInt (storeWith [("a".toList, "12abc".toList), ("b".toList, " -8 threads".toList)])
        emptyFs "b".toList 7
      = (-8, storeWith [("a".toList, "12abc".toList), ("b".toList, " -8 threads".toList)],
          emptyFs) :=
  ⟨by decide, by decide, by decide,
   (C27_getInt_leading_integer
      (storeWith [("a".toList, "12abc".toList), ("b".toList, " -8 threads".toList)])
      emptyFs "a".toList "12abc".toList 7 (by decide)).1
      [] [] "12".toList "abc".toList (by decide) (by decide) (by decide),
   by decide, by decide,
   (C27_getInt_leading_integer
      (storeWith [("a".toList, "12abc".toList), ("b".toList, " -8 threads".toList)])
      emptyFs "b".toList " -8 threads".toList 7 (by decide)).1
      " ".toList "-".toList "8".toList " threads".toList (by decide) (by decide) (by decide)⟩

/-- C28: the ten pairs `createDefaultConfig` writes into an empty store are the documented
built-in set; they satisfy `validateConfig` (the three required keys are present,
`max_threads` is `4`, within `[1,32]`, and `batch_size` is `100`, within `[1,10000]`), and
every one of their keys satisfies `isValidKey`. -/
theorem C28_defaults_self_consistent (fs : FileSystem) :
    (createDefaultConfig ConfigManager.new).config = builtinDefaults ∧
    (validateConfig (createDefaultConfig ConfigManager.new) fs).1 = true ∧
    (∀ k ∈ requiredKeys, hasKey (createDefaultConfig ConfigManager.new) k = true) ∧
    (getInt (createDefaultConfig ConfigManager.new) fs "max_threads".toList 0).1 = 4 ∧
    (getInt (createDefaultConfig ConfigManager.new) fs "batch_size".toList 0).1 = 100 ∧
    (∀ p ∈ (createDefaultConfig ConfigManager.new).config, isValidKey p.1 = true) := by
  have hcfg : (createDefaultConfig ConfigManager.new).config = builtinDefaults := by decide
  have hom : (createDefaultConfig ConfigManager.new).config.find "operation_mode".toList
      = some "normal".toList := by decide
  have hmt : (createDefaultConfig ConfigManager.new).config.find "max_threads".toList
      = some "4".toList := by decide
  have hbs : (createDefaultConfig ConfigManager.new).config.find "batch_size".toList
      = some "100".toList := by decide
  have h4 : stoi "4".toList = some 4 := by decide
  have h100 : stoi "100".toList = some 100 := by decide
  refine ⟨hcfg, ?_, by decide, ?_, ?_, by decide⟩
  · rw [validateConfig_result _ fs _ _ _ hom hmt hbs, h4, h100]
    decide
  · rw [getInt_present _ fs _ _ 0 hmt, h4]
    rfl
  · rw [getInt_present _ fs _ _ 0 hbs, h100]
    rfl

/-! ## Lemmas: the key order is a strict total order, and the map stays sorted -/

theorem strLt_cons_iff (a b : Char) (as bs : Str) :
    strLt (a :: as) (b :: bs) = true ↔ a < b ∨ (a = b ∧ strLt as bs = true) := by
  simp only [strLt]
  by_cases hab : a < b
  · simp [hab]
  · by_cases hba : b < a
    · have hne : a ≠ b := fun e => by rw [e] at hba; exact lt_irrefl _ hba
      simp [hab, hba, hne]
    · have he : a = b := le_antisymm (not_lt.1 hba) (not_lt.1 hab)
      simp [hab, hba, he]

theorem strLt_trans : ∀ (a b c : Str), strLt a b = true → strLt b c = true →
    strLt a c = true
  | [], [], _, h, _ => by simp [strLt] at h
  | [], _ :: _, [], _, h => by simp [strLt] at h
  | [], _ :: _, _ :: _, _, _ => rfl
  | _ :: _, [], _, h, _ => by simp [strLt] at h
  | _ :: _, _ :: _, [], _, h => by simp [strLt] at h
  | a :: as, b :: bs, c :: cs, h1, h2 => by
    rw [strLt_cons_iff] at h1 h2 ⊢
    rcases h1 with h1 | ⟨e1, h1⟩
    · rcases h2 with h2 | ⟨e2, _⟩
      · exact Or.inl (lt_trans h1 h2)
      · exact Or.inl (e2 ▸ h1)
    · rcases h2 with h2 | ⟨e2, h2⟩
      · exact Or.inl (e1 ▸ h2)
      · exact Or.inr ⟨e1.trans e2, strLt_trans as bs cs h1 h2⟩

theorem strLt_total : ∀ (a b : Str), strLt a b = false → a ≠ b → strLt b a = true
  | [], [], _, hne => absurd rfl hne
  | [], _ :: _, h, _ => by simp [strLt] at h
  | _ :: _, [], _, _ => rfl
  | a :: as, b :: bs, h, hne => by
    rw [strLt_cons_iff]
    have hn : ¬ (a < b ∨ (a = b ∧ strLt as bs = true)) := by
      rw [← strLt_cons_iff, h]
      exact Bool.false_ne_true
    push_neg at hn
    by_cases hba : b < a
    · exact Or.inl hba
    · have he : a = b := le_antisymm (not_lt.1 hba) hn.1
      have hf : strLt as bs = false := by
        cases hs : strLt as bs with
        | false => rfl
        | true => exact absurd hs (hn.2 he)
      have hne2 : as ≠ bs := fun e => hne (by rw [he, e])
      exact Or.inr ⟨he.symm, strLt_total as bs hf hne2⟩

theorem StdMap.sorted_assign {m : StdMap} (hs : StdMap.Sorted m) (k v : Str) :
    StdMap.Sorted (m.assign k v) := by
  induction m with
  | nil => exact List.pairwise_singleton _ _
  | cons p rest ih =>
    obtain ⟨k1, v1⟩ := p
    have hp := List.pairwise_cons.1 hs
    simp only [StdMap.assign]
    by_cases h1 : strLt k k1 = true
    · simp only [h1, if_true]
      refine List.pairwise_cons.2 ⟨?_, hs⟩
      intro q hq
      rcases List.mem_cons.1 hq with e | hq
      · rw [e]
        exact h1
      · exact strLt_trans _ _ _ h1 (hp.1 q hq)
    · by_cases h2 : k1 = k
      · subst h2
        simp only [h1, Bool.false_eq_true, if_false, if_true]
        exact List.pairwise_cons.2 ⟨fun q hq => hp.1 q hq, hp.2⟩
      · simp only [h1, h2, Bool.false_eq_true, if_false]
        have hlt : strLt k1 k = true :=
          strLt_total k k1 (by simpa using h1) (fun e => h2 e.symm)
        refine List.pairwise_cons.2 ⟨?_, ih hp.2⟩
        intro q hq
        rcases StdMap.mem_assign rest k v q hq with hq | hq
        · exact hp.1 q hq
        · rw [hq]
          exact hlt

theorem StdMap.sorted_erase {m : StdMap} (hs : StdMap.Sorted m) (k : Str) :
    StdMap.Sorted (m.erase k) := by
  induction m with
  | nil => exact hs
  | cons p rest ih =>
    obtain ⟨k1, v1⟩ := p
    have hp := List.pairwise_cons.1 hs
    simp only [StdMap.erase]
    by_cases h : k1 = k
    · simp only [h, if_true]
      exact hp.2
    · simp only [h, if_false]
      exact List.pairwise_cons.2
        ⟨fun q hq => hp.1 q (StdMap.mem_erase rest k q hq), ih hp.2⟩

theorem StdMap.sorted_foldl_assign {m : StdMap} (hs : StdMap.Sorted m) (ps : StdMap) :
    StdMap.Sorted (ps.foldl (fun c p => StdMap.assign c p.1 p.2) m) := by
  induction ps generalizing m with
  | nil => exact hs
  | cons p ps ih => exact ih (StdMap.sorted_assign hs p.1 p.2)

theorem StdMap.sorted_applyLines {m : StdMap} (hs : StdMap.Sorted m) (lines : List Str) :
    StdMap.Sorted (applyLines m lines) := by
  induction lines generalizing m with
  | nil => exact hs
  | cons l ls ih =>
    rw [applyLines_cons]
    cases lineEntry l with
    | none => exact ih hs
    | some kv => exact ih (StdMap.sorted_assign hs kv.1 kv.2)

theorem StdMap.mem_of_find (m : StdMap) (k v : Str) (h : m.find k = some v) : (k, v) ∈ m := by
  induction m with
  | nil => simp [StdMap.find] at h
  | cons p rest ih =>
    obtain ⟨k1, v1⟩ := p
    by_cases hk : k1 = k
    · simp only [StdMap.find, hk, if_true, Option.some.injEq] at h
      rw [hk, h]
      exact List.mem_cons_self _ _
    · simp only [StdMap.find, hk, if_false] at h
      exact List.mem_cons_of_mem _ (ih h)

theorem StdMap.find_head_rest (k v : Str) (rest : StdMap)
    (hs : StdMap.Sorted ((k, v) :: rest)) : rest.find k = none := by
  apply StdMap.find_none_of_keys_ne
  intro q hq e
  have hlt := (List.pairwise_cons.1 hs).1 q hq
  rw [e, strLt_irrefl] at hlt
  exact Bool.false_ne_true hlt

/-- Two maps with strictly ascending keys that answer every lookup alike are the same
list. -/
theorem StdMap.sorted_ext : ∀ (m1 m2 : StdMap), StdMap.Sorted m1 → StdMap.Sorted m2 →
    (∀ k, StdMap.find m1 k = StdMap.find m2 k) → m1 = m2
  | [], [], _, _, _ => rfl
  | [], (k2, v2) :: r2, _, _, h => by
    have := h k2
    simp [StdMap.find] at this
  | (k1, v1) :: r1, [], _, _, h => by
    have := h k1
    simp [StdMap.find] at this
  | (k1, v1) :: r1, (k2, v2) :: r2, hs1, hs2, h => by
    have hp1 := List.pairwise_cons.1 hs1
    have hp2 := List.pairwise_cons.1 hs2
    have hk : k1 = k2 := by
      by_contra hne
      have h1 : StdMap.find ((k2, v2) :: r2) k1 = some v1 := by
        rw [← h k1]
        simp [StdMap.find]
      have h2 : StdMap.find ((k1, v1) :: r1) k2 = some v2 := by
        rw [h k2]
        simp [StdMap.find]
      have hne2 : ¬ k2 = k1 := fun e => hne e.symm
      simp only [StdMap.find, hne2, if_false] at h1
      simp only [StdMap.find, hne, if_false] at h2
      have l1 := hp2.1 _ (StdMap.mem_of_find r2 k1 v1 h1)
      have l2 := hp1.1 _ (StdMap.mem_of_find r1 k2 v2 h2)
      have := strLt_asymm _ _ l1
      rw [l2] at this
      exact Bool.noConfusion this
    subst hk
    have hv : v1 = v2 := by
      have := h k1
      simpa [StdMap.find] using this
    subst hv
    have hrest : ∀ k, StdMap.find r1 k = StdMap.find r2 k := by
      intro k
      by_cases hk : k1 = k
      · subst hk
        rw [StdMap.find_head_rest k1 v1 r1 hs1, StdMap.find_head_rest k1 v1 r2 hs2]
      · have := h k
        simpa [StdMap.find, hk] using this
    rw [StdMap.sorted_ext r1 r2 hp1.2 hp2.2 hrest]

/-- Every public call keeps the keys of the entries strictly ascending. -/
theorem sorted_run {D : Type} (toStr : D → Str) (stod : Str → Option D)
    (op : Op D) (st : ConfigManager × FileSystem) (h : StdMap.Sorted st.1.config) :
    StdMap.Sorted (op.run toStr stod st).1.config := by
  obtain ⟨s, fs⟩ := st
  have hload : ∀ path, StdMap.Sorted (loadConfig s fs path).2.1.config := by
    intro path
    cases hopen : fs.openRead path with
    | some content =>
      rw [loadConfig_opened s fs path content hopen]
      exact StdMap.sorted_applyLines h _
    | none =>
      unfold loadConfig
      simp only [hopen]
      by_cases hd : s.enableDefaults = true
      · simp only [hd, if_true]
        rw [createDefaultConfig_config]
        exact StdMap.sorted_foldl_assign h _
      · simp only [hd, if_false]
        exact h
  have hassign : ∀ (t : ConfigManager) (key v : Str),
      (t = s ∨ t = { s with config := s.config.assign key v }) → StdMap.Sorted t.config := by
    intro t key v ht
    rcases ht with rfl | rfl
    · exact h
    · exact StdMap.sorted_assign h key v
  cases op with
  | loadConfig filename => exact hload filename
  | reload =>
    simp only [Op.run, reload]
    by_cases he : s.configFile.isEmpty = true
    · simp only [he, if_true]
      exact h
    · simp only [he, if_false]
      exact hload _
  | getString key d => exact hassign _ key d (getString_state s fs key d)
  | getInt key d =>
    simp only [Op.run, getInt_state]
    exact hassign _ key _ (getString_state s fs key _)
  | getDouble key d =>
    simp only [Op.run, getDouble_state]
    exact hassign _ key _ (getString_state s fs key _)
  | getBool key d =>
    simp only [Op.run, getBool_state]
    exact hassign _ key _ (getString_state s fs key _)
  | setString key v => exact hassign _ key v (setString_state s fs key v)
  | setInt key v => exact hassign _ key _ (setString_state s fs key _)
  | setDouble key v => exact hassign _ key _ (setString_state s fs key _)
  | setBool key v => exact hassign _ key _ (setString_state s fs key _)
  | removeKey key =>
    rcases removeKey_state s fs key with e | e
    · simp only [Op.run, e]
      exact h
    · simp only [Op.run, e]
      exact StdMap.sorted_erase h key
  | clear =>
    have : (clear s fs).1.config = [] := by
      unfold clear
      simp only []
      split <;> rfl
    simp only [Op.run, this]
    exact List.Pairwise.nil
  | saveConfig => exact h

theorem sorted_runOps {D : Type} (toStr : D → Str) (stod : Str → Option D)
    (ops : List (Op D)) (st : ConfigManager × FileSystem) (h : StdMap.Sorted st.1.config) :
    StdMap.Sorted (runOps toStr stod ops st).1.config := by
  induction ops generalizing st with
  | nil => exact h
  | cons op ops ih =>
    simp only [runOps, List.foldl_cons]
    exact ih _ (sorted_run toStr stod op st h)

theorem FileSystem.write_write (fs : FileSystem) (p d : Str) :
    (fs.write p d).write p d = fs.write p d := by
  unfold FileSystem.write
  congr 1
  funext q
  by_cases h : q = p <;> simp [h]

theorem saveConfig_twice (s : ConfigManager) (fs : FileSystem) :
    saveConfig s (saveConfig s fs).2 = saveConfig s fs := by
  unfold saveConfig
  by_cases he : s.configFile.isEmpty = true
  · simp [he]
  · by_cases hw : fs.openWrite s.configFile = true
    · have hw2 : (fs.write s.configFile (serialize s.config)).openWrite s.configFile = true := hw
      simp only [he, hw, hw2, Bool.not_true, Bool.false_eq_true, if_false,
        FileSystem.write_write]
    · simp [he, hw]

/-! ## Lemmas: the options never change -/

/-- No public call changes the three options `enableValidation`, `enableDefaults` and
`autoSave`. -/
theorem options_run {D : Type} (toStr : D → Str) (stod : Str → Option D)
    (op : Op D) (st : ConfigManager × FileSystem) :
    (op.run toStr stod st).1.enableValidation = st.1.enableValidation ∧
    (op.run toStr stod st).1.enableDefaults = st.1.enableDefaults ∧
    (op.run toStr stod st).1.autoSave = st.1.autoSave := by
  obtain ⟨s, fs⟩ := st
  have hload : ∀ path,
      (loadConfig s fs path).2.1.enableValidation = s.enableValidation ∧
      (loadConfig s fs path).2.1.enableDefaults = s.enableDefaults ∧
      (loadConfig s fs path).2.1.autoSave = s.autoSave := by
    intro path
    cases hopen : fs.openRead path with
    | some content =>
      rw [loadConfig_opened s fs path content hopen]
      exact ⟨rfl, rfl, rfl⟩
    | none =>
      unfold loadConfig
      simp only [hopen]
      by_cases hd : s.enableDefaults = true
      · simp only [hd, if_true]
        rw [createDefaultConfig_fields]
        exact ⟨rfl, rfl, rfl⟩
      · simp only [hd, if_false]
        exact ⟨rfl, rfl, rfl⟩
  have hcfg : ∀ (t : ConfigManager) (m : StdMap), (t = s ∨ t = { s with config := m }) →
      t.enableValidation = s.enableValidation ∧ t.enableDefaults = s.enableDefaults ∧
      t.autoSave = s.autoSave := by
    intro t m ht
    rcases ht with rfl | rfl <;> exact ⟨rfl, rfl, rfl⟩
  cases op with
  | loadConfig filename => exact hload filename
  | reload =>
    by_cases he : s.configFile.isEmpty = true
    · have hr : reload s fs = (false, s, fs) := by simp [reload, he]
      show (reload s fs).2.1.enableValidation = _ ∧ (reload s fs).2.1.enableDefaults = _ ∧
        (reload s fs).2.1.autoSave = _
      rw [hr]
      exact ⟨rfl, rfl, rfl⟩
    · have hr : reload s fs = loadConfig s fs s.configFile := by simp [reload, he]
      show (reload s fs).2.1.enableValidation = _ ∧ (reload s fs).2.1.enableDefaults = _ ∧
        (reload s fs).2.1.autoSave = _
      rw [hr]
      exact hload _
  | getString key d => exact hcfg _ _ (getString_state s fs key d)
  | getInt key d =>
    simp only [Op.run, getInt_state]
    exact hcfg _ _ (getString_state s fs key _)
  | getDouble key d =>
    simp only [Op.run, getDouble_state]
    exact hcfg _ _ (getString_state s fs key _)
  | getBool key d =>
    simp only [Op.run, getBool_state]
    exact hcfg _ _ (getString_state s fs key _)
  | setString key v => exact hcfg _ _ (setString_state s fs key v)
  | setInt key v => exact hcfg _ _ (setString_state s fs key _)
  | setDouble key v => exact hcfg _ _ (setString_state s fs key _)
  | setBool key v => exact hcfg _ _ (setString_state s fs key _)
  | removeKey key => exact hcfg _ _ (removeKey_state s fs key)
  | clear =>
    have : (clear s fs).1 = { s with config := [] } := by
      unfold clear
      simp only []
      split <;> rfl
    exact hcfg _ [] (Or.inr this)
  | saveConfig => exact ⟨rfl, rfl, rfl⟩

/-- In every state reachable from a newly constructed store the three options are still
enabled; in particular default materialization is never disabled. -/
theorem options_runOps {D : Type} (toStr : D → Str) (stod : Str → Option D)
    (ops : List (Op D)) (fs : FileSystem) :
    (runOps toStr stod ops (ConfigManager.new, fs)).1.enableValidation = true ∧
    (runOps toStr stod ops (ConfigManager.new, fs)).1.enableDefaults = true ∧
    (runOps toStr stod ops (ConfigManager.new, fs)).1.autoSave = true := by
  have hgen : ∀ (ops : List (Op D)) (st : ConfigManager × FileSystem),
      (st.1.enableValidation = true ∧ st.1.enableDefaults = true ∧ st.1.autoSave = true) →
      (runOps toStr stod ops st).1.enableValidation = true ∧
      (runOps toStr stod ops st).1.enableDefaults = true ∧
      (runOps toStr stod ops st).1.autoSave = true := by
    intro ops
    induction ops with
    | nil => intro st h; exact h
    | cons op ops ih =>
      intro st h
      simp only [runOps, List.foldl_cons]
      have hr := options_run toStr stod op st
      exact ih _ ⟨hr.1.trans h.1, hr.2.1.trans h.2.1, hr.2.2.trans h.2.2⟩
  exact hgen ops _ ⟨rfl, rfl, rfl⟩

/-! ## Lemmas: the written text, entry by entry -/

theorem serialize_eq_flatten (m : StdMap) :
    serialize m = (m.map (fun p => p.1 ++ '=' :: p.2 ++ ['\n'])).flatten := by
  induction m with
  | nil => rfl
  | cons p rest ih =>
    obtain ⟨k, v⟩ := p
    simp [serialize, ih]

theorem takeWhile_key (k v : Str) (h : '=' ∉ k) :
    (k ++ '=' :: v).takeWhile (fun c => c != '=') = k := by
  rw [List.takeWhile_append_of_pos]
  · simp [List.takeWhile]
  · intro c hc
    have : c ≠ '=' := fun e => h (e ▸ hc)
    simpa using this

theorem entryLines_keys (m : StdMap) (h : ∀ p ∈ m, '=' ∉ p.1) :
    (entryLines m).map (fun line => line.takeWhile (fun c => c != '=')) =
      m.map (fun pair => pair.1) := by
  induction m with
  | nil => rfl
  | cons p rest ih =>
    have hp := h p (List.mem_cons_self _ _)
    have hrest := ih (fun q hq => h q (List.mem_cons_of_mem _ hq))
    simp only [entryLines, List.map_cons, List.map_map] at hrest ⊢
    rw [takeWhile_key p.1 p.2 hp]
    exact congrArg _ hrest

/-! ## The claims: deterministic serialization -/

/-- C29: in every state reachable from a newly constructed store by public calls the keys
of the entries are strictly ascending in the byte-wise order. `getKeys` returns them in that
order, and the text `saveConfig` writes is `key=value` and a newline for each entry, one
after the other in that order: when no key or value contains a newline and no key contains
`=`, the lines of the written file are `key=value` in ascending key order, the keys read off
the lines (the text before the first `=`) being exactly the sequence `getKeys` returns. Two
stores reached by any two sequences of calls that hold the same mapping have identical
entries and produce identical file content (identical results of `saveConfig` when bound to
the same path), and saving twice in a row writes the same content as saving once. -/
theorem C29_sorted_deterministic_serialization {D : Type} (toStr : D → Str)
    (stod : Str → Option D) (ops1 ops2 : List (Op D)) (fs1 fs2 fs : FileSystem)
    (s1 s2 : ConfigManager)
    (h1 : s1 = (runOps toStr stod ops1 (ConfigManager.new, fs1)).1)
    (h2 : s2 = (runOps toStr stod ops2 (ConfigManager.new, fs2)).1) :
    (getKeys s1).Pairwise (fun a b => strLt a b = true) ∧
    (fs.openWrite s1.configFile = true →
      (saveConfig s1 fs).2.content s1.configFile = some (serialize s1.config)) ∧
    ((∀ k, s1.config.find k = s2.config.find k) →
      s1.config = s2.config ∧ serialize s1.config = serialize s2.config ∧
      getKeys s1 = getKeys s2 ∧
      (s1.configFile = s2.configFile → saveConfig s1 fs = saveConfig s2 fs)) ∧
    saveConfig s1 (saveConfig s1 fs).2 = saveConfig s1 fs ∧
    s1.config.Pairwise (fun a b => strLt a.1 b.1 = true) ∧
    (fs.openWrite s1.configFile = true →
      (saveConfig s1 fs).2.content s1.configFile
        = some (s1.config.map (fun p => p.1 ++ '=' :: p.2 ++ ['\n'])).flatten) ∧
    (fs.openWrite s1.configFile = true → NoNewline s1.config →
      (∀ p ∈ s1.config, '=' ∉ p.1) →
      ∀ text, (saveConfig s1 fs).2.content s1.configFile = some text →
        getlines text = s1.config.map (fun p => p.1 ++ '=' :: p.2) ∧
        (getlines text).map (fun line => line.takeWhile (fun c => c != '=')) = getKeys s1 ∧
        ((getlines text).map (fun line => line.takeWhile (fun c => c != '='))).Pairwise
          (fun a b => strLt a b = true)) := by
  have hs1 : StdMap.Sorted s1.config := by
    rw [h1]
    exact sorted_runOps toStr stod ops1 _ List.Pairwise.nil
  have hs2 : StdMap.Sorted s2.config := by
    rw [h2]
    exact sorted_runOps toStr stod ops2 _ List.Pairwise.nil
  have hkeys : (getKeys s1).Pairwise (fun a b => strLt a b = true) := by
    unfold getKeys
    rw [List.pairwise_map]
    exact hs1
  refine ⟨hkeys, saveConfig_content s1 fs, ?_, saveConfig_twice s1 fs, hs1, ?_, ?_⟩
  · intro hsame
    have hcfg : s1.config = s2.config := StdMap.sorted_ext _ _ hs1 hs2 hsame
    refine ⟨hcfg, by rw [hcfg], by unfold getKeys; rw [hcfg], ?_⟩
    intro hfile
    unfold saveConfig
    rw [hcfg, hfile]
  · intro hw
    rw [saveConfig_content s1 fs hw, serialize_eq_flatten]
  · intro hw hnl heq text htext
    rw [saveConfig_content s1 fs hw] at htext
    cases htext
    have hlines : getlines (serialize s1.config) = entryLines s1.config :=
      getlines_serialize s1.config hnl
    have hk : (getlines (serialize s1.config)).map
        (fun line => line.takeWhile (fun c => c != '=')) = getKeys s1 := by
      rw [hlines]
      exact entryLines_keys s1.config heq
    refine ⟨hlines, hk, ?_⟩
    rw [hk]
    exact hkeys

/-- C29, applied to a store that loads the file `b=2`, `a=1` and saves it again, and to a
store that receives the same two entries from setters: the first writes `a=1`, `b=2`, in
ascending key order, and the second would write the same text. -/
theorem C29_sorted_deterministic_serialization_witness :
    (runOps noDoubleToStr noStod [Op.loadConfig "f".toList]
        (ConfigManager.new, oneFileFs "f".toList "b=2\na=1\n".toList)).1.config
      = [("a".toList, "1".toList), ("b".toList, "2".toList)] ∧
    (saveConfig (runOps noDoubleToStr noStod [Op.loadConfig "f".toList]
        (ConfigManager.new, oneFileFs "f".toList "b=2\na=1\n".toList)).1 emptyFs).2.content
        "f".toList = some "a=1\nb=2\n".toList ∧
    (getlines "a=1\nb=2\n".toList).map (fun line => line.takeWhile (fun c => c != '='))
      = getKeys (runOps noDoubleToStr noStod [Op.loadConfig "f".toList]
        (ConfigManager.new, oneFileFs "f".toList "b=2\na=1\n".toList)).1 ∧
    serialize (runOps noDoubleToStr noStod [Op.loadConfig "f".toList]
        (ConfigManager.new, oneFileFs "f".toList "b=2\na=1\n".toList)).1.config
      = serialize (runOps noDoubleToStr noStod
        [Op.setString "c".toList "3".toList, Op.setString "b".toList "2".toList,
         Op.setString "a".toList "1".toList, Op.removeKey "c".toList]
        (ConfigManager.new, emptyFs)).1.config :=
  ⟨by decide, by decide,
   ((C29_sorted_deterministic_serialization noDoubleToStr noStod
      [Op.loadConfig "f".toList]
      [Op.setString "c".toList "3".toList, Op.setString "b".toList "2".toList,
       Op.setString "a".toList "1".toList, Op.removeKey "c".toList]
      (oneFileFs "f".toList "b=2\na=1\n".toList) emptyFs emptyFs _ _ rfl rfl).2.2.2.2.2.2
      (by decide) (by decide) (by decide) "a=1\nb=2\n".toList (by decide)).2.1,
   ((C29_sorted_deterministic_serialization noDoubleToStr noStod
      [Op.loadConfig "f".toList]
      [Op.setString "c".toList "3".toList, Op.setString "b".toList "2".toList,
       Op.setString "a".toList "1".toList, Op.removeKey "c".toList]
      (oneFileFs "f".toList "b=2\na=1\n".toList) emptyFs emptyFs _ _ rfl rfl).2.2.1 (by
        intro k
        have e : ∀ a b : StdMap, a = b → a.find k = b.find k := fun _ _ h => by rw [h]
        exact e _ _ (by decide))).2.1⟩

end ConfigManagerModel

namespace CalculatorModel

/-! ## The claim on `calculate_combinations` -/

/-- The computation on the naturals `r ≤ n ≤ 12`, checked case by case: the result is the
binomial coefficient, each factorial is the mathematical one, the subtraction does not wrap,
the division is exact with a non-zero divisor, and no product leaves the 32-bit range. -/
theorem combinations_small : ∀ n : Nat, n ≤ 12 → ∀ r : Nat, r ≤ n →
    calculate_combinations n r = some (Nat.choose n r : Int) ∧
    factorial n = some (n.factorial : Int) ∧
    factorial r = some (r.factorial : Int) ∧
    wrap32 ((n : Int) - r) = ((n - r : Nat) : Int) ∧
    factorial ((n - r : Nat) : Int) = some ((n - r).factorial : Int) ∧
    r.factorial * (n - r).factorial ∣ n.factorial ∧
    r.factorial * (n - r).factorial ≠ 0 ∧
    n.factorial / (r.factorial * (n - r).factorial) = Nat.choose n r ∧
    n.factorial ≤ 2147483647 ∧
    r.factorial * (n - r).factorial ≤ 2147483647 := by
  decide

/-- C30: for all integers `n` and `r` with `0 ≤ r ≤ n ≤ 12`, `calculate_combinations(n, r)`
returns the binomial coefficient `C(n, r)`: the three factorials it computes are the
mathematical ones, the divisor `r! * (n - r)!` is non-zero and divides `n!` exactly, and
neither `n!` nor the divisor exceeds the 32-bit signed range. For every `r > n` it returns
`0`. -/
theorem C30_calculate_combinations (n r : Int) :
    (0 ≤ r → r ≤ n → n ≤ 12 →
      calculate_combinations n r = some (Nat.choose n.toNat r.toNat : Int) ∧
      factorial n = some (n.toNat.factorial : Int) ∧
      factorial r = some (r.toNat.factorial : Int) ∧
      factorial (wrap32 (n - r)) = some ((n.toNat - r.toNat).factorial : Int) ∧
      r.toNat.factorial * (n.toNat - r.toNat).factorial ∣ n.toNat.factorial ∧
      r.toNat.factorial * (n.toNat - r.toNat).factorial ≠ 0 ∧
      n.toNat.factorial / (r.toNat.factorial * (n.toNat - r.toNat).factorial)
        = Nat.choose n.toNat r.toNat ∧
      n.toNat.factorial ≤ 2147483647 ∧
      r.toNat.factorial * (n.toNat - r.toNat).factorial ≤ 2147483647) ∧
    (n < r → calculate_combinations n r = some 0) := by
  constructor
  · intro h0 h1 h2
    obtain ⟨a, rfl⟩ := Int.eq_ofNat_of_zero_le (le_trans h0 h1)
    obtain ⟨b, rfl⟩ := Int.eq_ofNat_of_zero_le h0
    have ha : a ≤ 12 := by exact_mod_cast h2
    have hb : b ≤ a := by exact_mod_cast h1
    obtain ⟨c1, c2, c3, c4, c5, c6, c7, c8, c9, c10⟩ := combinations_small a ha b hb
    simp only [Int.toNat_ofNat]
    rw [c4]
    exact ⟨c1, c2, c3, c5, c6, c7, c8, c9, c10⟩
  · intro h
    unfold calculate_combinations
    rw [if_pos h]

/-- C30, applied to `calculate_combinations(5, 2)` and `calculate_combinations(2, 5)`. -/
theorem C30_calculate_combinations_witness :
    (0 : Int) ≤ 2 ∧ (2 : Int) ≤ 5 ∧ (5 : Int) ≤ 12 ∧
    calculate_combinations 5 2 = some 10 ∧
    calculate_combinations 2 5 = some 0 :=
  ⟨by decide, by decide, by decide,
   ((C30_calculate_combinations 5 2).1 (by decide) (by decide) (by decide)).1,
   (C30_calculate_combinations 2 5).2 (by decide)⟩

end CalculatorModel
